import Mathlib

/-!
Shallow embedding of the esp-csi-tui data-parsing pipeline.

Machine strings are modelled as `List Char`.  The Rust string primitives used
by the source (`trim`, `strip_prefix`, `starts_with`, `split(',')`,
`trim_matches`, integer `parse`) are embedded below, and the stateful CSI CLI
line parser (`src/csi_packet.rs`), the tabular codec (`src/csv_utils.rs`,
`src/read_data.rs`), the heatmap normalizer (`src/read_data.rs`), the worker
poll of the consumer loop (`src/app/mod.rs`) and the recording worker's
heatmap-row construction (`src/parse_data.rs`) are translated from the source.
-/

set_option maxRecDepth 10000

namespace EspCsi

/-- Whitespace test used by the embedding of Rust `str::trim` (the source only
ever meets ASCII whitespace on the serial stream and in the CSV files). -/
def isWS (c : Char) : Bool :=
  c = ' ' || c = '\t' || c = '\n' || c = '\r'

/-- Embedding of Rust `str::trim`: drop whitespace from both ends. -/
def trim (l : List Char) : List Char :=
  ((l.dropWhile isWS).reverse.dropWhile isWS).reverse

/-- Embedding of Rust `str::strip_prefix`: `chopPre p l` returns the remainder
of `l` after the leading occurrence of `p`, or `none` when `p` is not a
leading segment of `l`. -/
def chopPre : List Char → List Char → Option (List Char)
  | [], l => some l
  | _ :: _, [] => none
  | p :: ps, c :: cs => if p = c then chopPre ps cs else none

/-- Embedding of Rust `str::starts_with` with a string pattern. -/
def startsWithStr (l p : List Char) : Bool :=
  (chopPre p l).isSome

/-- Embedding of Rust `str::starts_with` with a single-character pattern. -/
def startsWithChar (l : List Char) (c : Char) : Bool :=
  match l with
  | [] => false
  | x :: _ => x = c

/-- Decimal digit character for a digit value (only called with values < 10). -/
def digitChar : Nat → Char
  | 0 => '0' | 1 => '1' | 2 => '2' | 3 => '3' | 4 => '4'
  | 5 => '5' | 6 => '6' | 7 => '7' | 8 => '8' | _ => '9'

/-- Accumulator form of the decimal rendering of a natural number. -/
def natReprAux (n : Nat) (acc : List Char) : List Char :=
  if h : n < 10 then digitChar n :: acc
  else natReprAux (n / 10) (digitChar (n % 10) :: acc)
termination_by n
decreasing_by exact Nat.div_lt_self (by omega) (by omega)

/-- Decimal rendering of a natural number (the digits Rust `Display` emits). -/
def natRepr (n : Nat) : List Char :=
  natReprAux n []

/-- Decimal rendering of a signed integer (the form Rust `Display` emits). -/
def intRepr (v : Int) : List Char :=
  if v < 0 then '-' :: natRepr v.natAbs else natRepr v.toNat

/-- Value of a digit string, folded left to right the way Rust `from_str`
accumulates; `none` as soon as a non-digit appears. -/
def digitsValAux : Nat → List Char → Option Nat
  | acc, [] => some acc
  | acc, c :: cs =>
      if c.isDigit then digitsValAux (acc * 10 + (c.toNat - 48)) cs
      else none

/-- Value of a non-empty all-digit string, `none` otherwise. -/
def digitsVal (l : List Char) : Option Nat :=
  match l with
  | [] => none
  | _ :: _ => digitsValAux 0 l

/-- Embedding of Rust `u64::from_str` (used via `parse::<u64>()`): an optional
leading `+`, then at least one digit, value below `2 ^ 64`. -/
def parseU64 (l : List Char) : Option Nat :=
  match l with
  | [] => none
  | c :: rest =>
      if c = '+' then
        match digitsVal rest with
        | some v => if v < 2 ^ 64 then some v else none
        | none => none
      else
        match digitsVal l with
        | some v => if v < 2 ^ 64 then some v else none
        | none => none

/-- Embedding of Rust `i32::from_str` (used via `parse::<i32>()`): an optional
sign, then at least one digit, value within the `i32` range. -/
def parseI32 (l : List Char) : Option Int :=
  match l with
  | [] => none
  | c :: rest =>
      if c = '-' then
        match digitsVal rest with
        | some v => if v ≤ 2 ^ 31 then some (-(v : Int)) else none
        | none => none
      else if c = '+' then
        match digitsVal rest with
        | some v => if v < 2 ^ 31 then some (v : Int) else none
        | none => none
      else
        match digitsVal l with
        | some v => if v < 2 ^ 31 then some (v : Int) else none
        | none => none

/-- Embedding of Rust `str::split(',')`: split at every separator, keeping
empty segments (splitting the empty string yields one empty segment). -/
def splitOnChar (sep : Char) : List Char → List (List Char)
  | [] => [[]]
  | c :: cs =>
      if c = sep then [] :: splitOnChar sep cs
      else
        match splitOnChar sep cs with
        | [] => [[c]]
        | t :: ts => (c :: t) :: ts

/-- Bracket test of the payload line's `trim_matches(|c| c == '[' || c == ']')`. -/
def isBracket (c : Char) : Bool :=
  c = '[' || c = ']'

/-- Embedding of `trim_matches` with the bracket pattern: strip brackets from
both ends of the line. -/
def trimBrackets (l : List Char) : List Char :=
  ((l.dropWhile isBracket).reverse.dropWhile isBracket).reverse

/-- Comma-join of string segments (the shape `format!` plus the per-value
`,{}` appends of the source produce, and the inverse image of `split(',')`). -/
def joinComma : List (List Char) → List Char
  | [] => []
  | [x] => x
  | x :: y :: rest => x ++ ',' :: joinComma (y :: rest)

/-! ## Frame model and line parser — `src/csi_packet.rs` -/

/-- Rust `CsiPacket`: one CSI sample event. `esp_timestamp` is a `u64`,
`rssi` an `i32`, `csi_values` the raw interleaved I/Q values (`Vec<i32>`). -/
structure CsiPacket where
  esp_timestamp : Nat
  rssi : Int
  csi_values : List Int
deriving DecidableEq, Inhabited

/-- Rust `CsiCliParser`: the session-scoped parser state. -/
structure CsiCliParser where
  current_timestamp : Option Nat
  current_rssi : Option Int
  waiting_for_csi_line : Bool
deriving DecidableEq, Inhabited

/-- Rust `CsiCliParser::default()` / `new()`. -/
def CsiCliParser.new : CsiCliParser :=
  ⟨none, none, false⟩

/-- Literal `"rssi:"` of the source. -/
def rssiPre : List Char := "rssi:".data

/-- Literal `"timestamp:"` of the source. -/
def timestampPre : List Char := "timestamp:".data

/-- Literal `"csi raw data"` of the source. -/
def csiMarker : List Char := "csi raw data".data

/-- Token loop of the payload branch of `feed_line`: each comma-separated
token is trimmed, empty tokens are skipped, tokens that parse as `i32` are
pushed, tokens that fail to parse are skipped with a warning. -/
def parseCsiTokens : List (List Char) → List Int
  | [] => []
  | t :: ts =>
      let t' := trim t
      if t'.isEmpty then parseCsiTokens ts
      else
        match parseI32 t' with
        | some v => v :: parseCsiTokens ts
        | none => parseCsiTokens ts

/-- Embedding of `CsiCliParser::feed_line` (`src/csi_packet.rs`): `&mut self`
becomes explicit state passing, the `Option<CsiPacket>` return is kept. -/
def feed_line (s : CsiCliParser) (line0 : List Char) : CsiCliParser × Option CsiPacket :=
  let line := trim line0
  if line.isEmpty || startsWithChar line '>' then (s, none)
  else
    match chopPre rssiPre line with
    | some rest =>
        (match parseI32 (trim rest) with
         | some r => ({ s with current_rssi := some r }, none)
         | none => (s, none))
    | none =>
    match chopPre timestampPre line with
    | some rest =>
        (match parseU64 (trim rest) with
         | some t => ({ s with current_timestamp := some t }, none)
         | none => (s, none))
    | none =>
    if startsWithStr line csiMarker then
      ({ s with waiting_for_csi_line := true }, none)
    else if s.waiting_for_csi_line && startsWithChar line '[' then
      let s1 := { s with waiting_for_csi_line := false }
      let inner := trimBrackets line
      let vals := parseCsiTokens (splitOnChar ',' inner)
      if vals.length ≠ 128 then (s1, none)
      else
        match s1.current_timestamp, s1.current_rssi with
        | some ts, some r =>
            ({ s1 with current_timestamp := none, current_rssi := none },
             some ⟨ts, r, vals⟩)
        | _, _ => (s1, none)
    else (s, none)

/-- Embedding of `CsiPacket::get_iq_pairs`: `chunks(2)` keeps consecutive
pairs, the `filter(len == 2)` drops a trailing odd chunk. -/
def get_iq_pairs : List Int → List (Int × Int)
  | a :: b :: rest => (a, b) :: get_iq_pairs rest
  | _ => []

/-- Embedding of `CsiPacket::get_amplitudes`: `sqrt(i^2 + q^2)` per pair.
The `f32` arithmetic is modelled over the reals. -/
noncomputable def get_amplitudes (p : CsiPacket) : List ℝ :=
  (get_iq_pairs p.csi_values).map
    (fun iq => Real.sqrt ((iq.1 : ℝ) ^ 2 + (iq.2 : ℝ) ^ 2))

/-- Embedding of `CsiPacket::get_phases`: `atan2(q, i)` per pair, modelled by
the complex argument of `i + q·I`. -/
noncomputable def get_phases (p : CsiPacket) : List ℝ :=
  (get_iq_pairs p.csi_values).map
    (fun iq => Complex.arg ⟨(iq.1 : ℝ), (iq.2 : ℝ)⟩)

/-! ## Tabular codec — `src/csv_utils.rs` and the decode side of
`src/read_data.rs` -/

/-- Embedding of `write_csv_line` (`src/csv_utils.rs`): the row starts with
`format!` of timestamp and rssi, then the loop appends `,{val}` for every raw
value.  The trailing newline of `writeln!` is the line terminator and is not
part of the row. -/
def write_csv_line (p : CsiPacket) : List Char :=
  p.csi_values.foldl (fun line v => line ++ ',' :: intRepr v)
    (natRepr p.esp_timestamp ++ ',' :: intRepr p.rssi)

/-- Decoding of one data row the way `load_csv_amplitude_series`
(`src/read_data.rs`) reads fields back: split on commas, trim each part,
parse field 0 as `u64`, field 1 as `i32`, every later field as `i32`. -/
def decodeRow (l : List Char) : Option (Nat × Int × List Int) :=
  match (splitOnChar ',' l).map trim with
  | p0 :: p1 :: rest =>
      match parseU64 p0, parseI32 p1, rest.mapM parseI32 with
      | some ts, some r, some vs => some (ts, r, vs)
      | _, _, _ => none
  | _ => none

/-! ## f32 model for the heatmap normalizer -/

/-- Model of the `f32` values met by the heatmap normalizer: finite values are
exact rationals, the infinities seed the min/max tracking, `nan` closes the
arithmetic.  (Finite overflow to infinity is not modelled; no claim depends
on it.) -/
inductive F32 where
  | finite (q : ℚ)
  | posInf
  | negInf
  | nan
deriving DecidableEq

/-- IEEE `<=` on the model: comparisons with `nan` are false. -/
def F32.fle : F32 → F32 → Bool
  | .nan, _ => false
  | _, .nan => false
  | .finite a, .finite b => a ≤ b
  | .negInf, _ => true
  | _, .posInf => true
  | .posInf, .finite _ => false
  | .posInf, .negInf => false
  | .finite _, .negInf => false

/-- Rust `f32::min`: if one argument is `nan` the other is returned. -/
def F32.fmin : F32 → F32 → F32
  | .nan, b => b
  | a, .nan => a
  | a, b => if F32.fle a b then a else b

/-- Rust `f32::max`: if one argument is `nan` the other is returned. -/
def F32.fmax : F32 → F32 → F32
  | .nan, b => b
  | a, .nan => a
  | a, b => if F32.fle a b then b else a

/-- IEEE addition on the model. -/
def F32.fadd : F32 → F32 → F32
  | .nan, _ => .nan
  | _, .nan => .nan
  | .finite a, .finite b => .finite (a + b)
  | .posInf, .negInf => .nan
  | .negInf, .posInf => .nan
  | .posInf, _ => .posInf
  | _, .posInf => .posInf
  | .negInf, _ => .negInf
  | _, .negInf => .negInf

/-- IEEE subtraction on the model. -/
def F32.fsub : F32 → F32 → F32
  | .nan, _ => .nan
  | _, .nan => .nan
  | .finite a, .finite b => .finite (a - b)
  | .posInf, .posInf => .nan
  | .negInf, .negInf => .nan
  | .posInf, _ => .posInf
  | _, .posInf => .negInf
  | .negInf, _ => .negInf
  | _, .negInf => .posInf

/-- IEEE multiplication on the model (`0 * inf = nan`). -/
def F32.fmul : F32 → F32 → F32
  | .nan, _ => .nan
  | _, .nan => .nan
  | .finite a, .finite b => .finite (a * b)
  | .finite a, .posInf => if 0 < a then .posInf else if a < 0 then .negInf else .nan
  | .finite a, .negInf => if 0 < a then .negInf else if a < 0 then .posInf else .nan
  | .posInf, .finite b => if 0 < b then .posInf else if b < 0 then .negInf else .nan
  | .negInf, .finite b => if 0 < b then .negInf else if b < 0 then .posInf else .nan
  | .posInf, .posInf => .posInf
  | .posInf, .negInf => .negInf
  | .negInf, .posInf => .negInf
  | .negInf, .negInf => .posInf

/-- IEEE division on the model (`x / 0` gives a signed infinity, `0 / 0` and
`inf / inf` give `nan`). -/
def F32.fdiv : F32 → F32 → F32
  | .nan, _ => .nan
  | _, .nan => .nan
  | .finite a, .finite b =>
      if b = 0 then (if 0 < a then .posInf else if a < 0 then .negInf else .nan)
      else .finite (a / b)
  | .finite _, .posInf => .finite 0
  | .finite _, .negInf => .finite 0
  | .posInf, .finite b => if 0 ≤ b then .posInf else .negInf
  | .negInf, .finite b => if 0 ≤ b then .negInf else .posInf
  | _, _ => .nan

/-- Rust `f32::is_finite`. -/
def F32.isFinite : F32 → Bool
  | .finite _ => true
  | _ => false

/-- Rust `f32::clamp(0.0, 1.0)`: values below 0 go to 0, above 1 to 1, `nan`
stays `nan`. -/
def F32.clamp01 : F32 → F32
  | .finite q => .finite (min (max q 0) 1)
  | .posInf => .finite 1
  | .negInf => .finite 0
  | .nan => .nan

/-- Rust `f32::round` on the rational carrier: round half away from zero. -/
def roundAway (q : ℚ) : Int :=
  if 0 ≤ q then ⌊q + 1 / 2⌋ else ⌈q - 1 / 2⌉

/-- Rust `f32::round`: round half away from zero, infinities and `nan` kept. -/
def F32.fround : F32 → F32
  | .finite q => .finite (roundAway q)
  | x => x

/-- Truncation toward zero of a rational (the integral part `as` keeps). -/
def qtrunc (q : ℚ) : Int :=
  if 0 ≤ q then ⌊q⌋ else ⌈q⌉

/-- Rust `as u8` on an `f32`: saturating cast, `nan` goes to 0. -/
def F32.toU8 : F32 → Nat
  | .finite q =>
      let r := qtrunc q
      if r < 0 then 0 else if 255 < r then 255 else r.toNat
  | .posInf => 255
  | .negInf => 0
  | .nan => 0

/-! ## Heatmap normalizer — `load_csv_heatmap` in `src/read_data.rs`

The function builds a `csv::Reader` with default settings; a record is
modelled as the list of its cells' parsed `f32` values.  The reader's
default is non-flexible: `rdr.records()` yields `Err(UnequalLengths)` for a
record whose field count differs from the header width, and the source's
`let record = result?;` then aborts the whole decode with that error —
`readRecord` models this check and the `Option` result models the `Result`.
An unparseable cell (`parse().unwrap_or(0.0)`) reads as `0.0`, which
`cellAt` captures with a defaulting lookup; after a successful strict read
its index default (the source's `get(idx).unwrap_or("0")`) is never hit. -/

/-- Cell access of the normalizer: `record.get(idx).unwrap_or("0")` followed
by `parse().unwrap_or(0.0)`. -/
def cellAt (record : List F32) (idx : Nat) : F32 :=
  record.getD idx (F32.finite 0)

/-- One step of `rdr.records()` under the csv reader's non-flexible default:
a record whose field count differs from the header width is an error
(`Err(UnequalLengths)`, modelled as `none`). -/
def readRecord (header_len : Nat) (record : List F32) : Option (List F32) :=
  if record.length = header_len then some record else none

/-- Squared amplitude of one cell in pass 1: `a_sq = i^2 + q^2` (no square
root, by design). -/
def asqCell (record : List F32) (sc : Nat) : F32 :=
  let i := cellAt record (2 + 2 * sc)
  let q := cellAt record (2 + 2 * sc + 1)
  F32.fadd (F32.fmul i i) (F32.fmul q q)

/-- One row of `raw_amp_rows`: the squared amplitudes of every subcarrier of
one record, in subcarrier order. -/
def rowAmps (ns : Nat) (record : List F32) : List F32 :=
  (List.range ns).map (asqCell record)

/-- All of `raw_amp_rows`, in record order. -/
def rawAmpRows (ns : Nat) (records : List (List F32)) : List (List F32) :=
  records.map (rowAmps ns)

/-- The tracked `global_min` of pass 1: `min` folded over every cell in the
order the two nested loops visit them, seeded with `f32::INFINITY`. -/
def globalMin (ns : Nat) (records : List (List F32)) : F32 :=
  (rawAmpRows ns records).flatten.foldl F32.fmin F32.posInf

/-- The tracked `global_max` of pass 1, seeded with `f32::NEG_INFINITY`. -/
def globalMax (ns : Nat) (records : List (List F32)) : F32 :=
  (rawAmpRows ns records).flatten.foldl F32.fmax F32.negInf

/-- Pass 2 on one cell: `scaled = ((a_sq - min) / range).clamp(0, 1) * 100`,
rounded, cast `as u8`. -/
def scaleCell (gmin range a : F32) : Nat :=
  F32.toU8 (F32.fround (F32.fmul (F32.clamp01 (F32.fdiv (F32.fsub a gmin) range))
    (F32.finite 100)))

/-- Subcarrier count the normalizer derives from the header width: the columns
after timestamp and rssi are interleaved I/Q; an odd stray column is dropped. -/
def numSub (header_len : Nat) : Nat :=
  let num_iq := header_len - 2
  if num_iq % 2 ≠ 0 then num_iq / 2 - 1 else num_iq / 2

/-- Embedding of `load_csv_heatmap` (`src/read_data.rs`): header width and the
records of the file stand for what the CSV reader is given; the `Option`
result models the `Result` — `none` is the error path, reached exactly when
the strict record stream yields an `Err` that `?` propagates (the early
returns for a narrow header, no subcarriers or no data rows are `Ok` with an
empty grid, as in the source). -/
def load_csv_heatmap (header_len : Nat) (records : List (List F32)) :
    Option (List (List Nat)) :=
  if header_len < 4 then some []
  else
    let ns := numSub header_len
    if ns = 0 then some []
    else
      match records.mapM (readRecord header_len) with
      | none => none
      | some recs =>
        let rows := rawAmpRows ns recs
        if rows.isEmpty then some []
        else
          let gmin := globalMin ns recs
          let gmax := globalMax ns recs
          if !gmin.isFinite || !gmax.isFinite || F32.fle gmax gmin then
            some (List.replicate rows.length (List.replicate ns 0))
          else
            let range := F32.fsub gmax gmin
            some (rows.map (fun row => row.map (scaleCell gmin range)))

/-! ## Replay decoder — `load_csv_amplitude_series` in `src/read_data.rs` -/

/-- Loop body of `load_csv_amplitude_series` over the data lines, threading
`first_ts`.  The `f64` amplitude is modelled over the reals; the elapsed time
`(ts - ts0) / 1e6` is exact on the rationals (Nat subtraction stands for the
non-negative `u64` difference of a monotone timestamp). -/
noncomputable def ampSeriesGo (i_col q_col : Nat) :
    List (List Char) → Option Nat → List (ℚ × ℝ)
  | [], _ => []
  | line0 :: rest, first_ts =>
      let line := trim line0
      if line.isEmpty then ampSeriesGo i_col q_col rest first_ts
      else
        let parts := (splitOnChar ',' line).map trim
        if parts.length ≤ q_col then ampSeriesGo i_col q_col rest first_ts
        else
          match parseU64 (parts.getD 0 []) with
          | none => ampSeriesGo i_col q_col rest first_ts
          | some ts =>
            match parseI32 (parts.getD i_col []) with
            | none => ampSeriesGo i_col q_col rest first_ts
            | some i =>
              match parseI32 (parts.getD q_col []) with
              | none => ampSeriesGo i_col q_col rest first_ts
              | some q =>
                let amp : ℝ := Real.sqrt ((i : ℝ) * (i : ℝ) + (q : ℝ) * (q : ℝ))
                match first_ts with
                | some ts0 =>
                    (((ts - ts0 : Nat) : ℚ) / 1000000, amp) ::
                      ampSeriesGo i_col q_col rest first_ts
                | none => ((0 : ℚ), amp) :: ampSeriesGo i_col q_col rest (some ts)

/-- Embedding of `load_csv_amplitude_series` (`src/read_data.rs`): the file
content is the list of its lines; an empty file is the only error. -/
noncomputable def load_csv_amplitude_series (lines : List (List Char))
    (subcarrier : Nat) : Option (List (ℚ × ℝ)) :=
  match lines with
  | [] => none
  | _header :: rest => some (ampSeriesGo (2 + 2 * subcarrier) (3 + 2 * subcarrier) rest none)

/-! ## Consumer loop worker poll — `App::check_worker` in `src/app/mod.rs` -/

/-- Rust `Step`: which step of input / recording the app is in. -/
inductive Step where
  | EnterFilename
  | ChooseAction
  | EnterDuration
  | Recording
  | Finished
deriving DecidableEq

/-- Outcome of one `try_recv` on the completion channel. -/
inductive TryRecv (α : Type) where
  | ok (a : α)
  | empty
  | disconnected

/-- Slice of the Rust `App` state that `check_worker` touches: the status
string, the step, whether the completion receiver is still held, and the
UI auto-switch fields the terminal arms reset. -/
structure AppSlice where
  status : List Char
  step : Step
  worker_done_rx : Bool
  recording_start : Option Nat
  auto_switched : Bool
  full_screen_plot : Bool
deriving DecidableEq

/-- Embedding of `App::check_worker` (`src/app/mod.rs`): the observed
`try_recv` outcome is passed in (the channel itself is external state); the file
reload of the success arm (`load_file_for_plot`, I/O) is the parameter
`lfp`. -/
def check_worker (lfp : AppSlice → AppSlice) (a : AppSlice)
    (poll : TryRecv (Except (List Char) Unit)) : AppSlice :=
  if a.worker_done_rx then
    match poll with
    | .ok (.ok ()) =>
        let a1 := { a with status := "Recording finished successfully.".data,
                           step := Step.Finished }
        let a2 := lfp a1
        { a2 with recording_start := none, auto_switched := false,
                  full_screen_plot := false, worker_done_rx := false }
    | .ok (.error err) =>
        { a with status := "Recording failed: ".data ++ err,
                 step := Step.Finished, recording_start := none,
                 auto_switched := false, full_screen_plot := false,
                 worker_done_rx := false }
    | .empty => a
    | .disconnected =>
        { a with status := "Worker thread disconnected unexpectedly.".data,
                 step := Step.Finished, worker_done_rx := false }
  else a

/-! ## Recording worker heatmap row — `record_csi_to_file` in
`src/parse_data.rs` -/

/-- Saturating `as u8` cast of an `f64`/`f32` value modelled over the reals
(truncation toward zero; the loop only meets values in `[0, 100]`). -/
noncomputable def realToU8 (x : ℝ) : Nat :=
  let r := if 0 ≤ x then ⌊x⌋ else ⌈x⌉
  if r < 0 then 0 else if 255 < r then 255 else r.toNat

/-- Embedding of the heatmap-row construction loop of `record_csi_to_file`
(`src/parse_data.rs`): for every subcarrier index `0..64` it indexes
`get_amplitudes()` with no bounds check — an out-of-range index is a panic,
modelled as `none`. -/
noncomputable def buildHeatmapRow (p : CsiPacket) : Option (List Nat) :=
  (List.range 64).mapM fun k =>
    ((get_amplitudes p).get? k).map fun amplitude =>
      realToU8 (min (amplitude / 100 * 100) 100)

/-! ## Infrastructure lemmas: digits, decimal round-trips, trim, split -/

theorem digitChar_isDigit {k : Nat} (h : k < 10) : (digitChar k).isDigit = true := by
  interval_cases k <;> decide

theorem digitChar_toNat {k : Nat} (h : k < 10) : (digitChar k).toNat - 48 = k := by
  interval_cases k <;> decide

theorem isWS_of_isDigit {c : Char} (h : c.isDigit = true) : isWS c = false := by
  have h1 : c ≠ ' ' := by intro e; subst e; exact absurd h (by decide)
  have h2 : c ≠ '\t' := by intro e; subst e; exact absurd h (by decide)
  have h3 : c ≠ '\n' := by intro e; subst e; exact absurd h (by decide)
  have h4 : c ≠ '\r' := by intro e; subst e; exact absurd h (by decide)
  simp [isWS, h1, h2, h3, h4]

theorem ne_comma_of_isDigit {c : Char} (h : c.isDigit = true) : c ≠ ',' := by
  intro e; subst e; exact absurd h (by decide)

theorem isBracket_of_isDigit {c : Char} (h : c.isDigit = true) : isBracket c = false := by
  have h1 : c ≠ '[' := by intro e; subst e; exact absurd h (by decide)
  have h2 : c ≠ ']' := by intro e; subst e; exact absurd h (by decide)
  simp [isBracket, h1, h2]

theorem natReprAux_eq_append (n : Nat) :
    ∀ acc, natReprAux n acc = natReprAux n [] ++ acc := by
  induction n using Nat.strong_induction_on with
  | _ n ih =>
    intro acc
    by_cases h : n < 10
    · rw [natReprAux]
      conv_rhs => rw [natReprAux]
      simp [h]
    · rw [natReprAux]
      conv_rhs => rw [natReprAux]
      simp only [h, dite_false]
      have hlt : n / 10 < n := Nat.div_lt_self (by omega) (by omega)
      rw [ih (n / 10) hlt (digitChar (n % 10) :: acc),
          ih (n / 10) hlt (digitChar (n % 10) :: [])]
      simp

theorem natRepr_ne_nil (n : Nat) : natRepr n ≠ [] := by
  unfold natRepr
  rw [natReprAux]
  by_cases h : n < 10 <;> simp [h]
  rw [natReprAux_eq_append]
  simp

theorem natRepr_all_digits (n : Nat) : ∀ c ∈ natRepr n, c.isDigit = true := by
  induction n using Nat.strong_induction_on with
  | _ n ih =>
    intro c hc
    unfold natRepr at hc
    rw [natReprAux] at hc
    by_cases h : n < 10
    · simp [h] at hc
      subst hc
      exact digitChar_isDigit h
    · simp only [h, dite_false] at hc
      rw [natReprAux_eq_append] at hc
      rcases List.mem_append.1 hc with h1 | h1
      · exact ih (n / 10) (Nat.div_lt_self (by omega) (by omega)) c h1
      · simp at h1
        subst h1
        exact digitChar_isDigit (Nat.mod_lt _ (by omega))

theorem digitsValAux_digit {c : Char} (hk : c.isDigit = true) (a : Nat) (l : List Char) :
    digitsValAux a (c :: l) = digitsValAux (a * 10 + (c.toNat - 48)) l := by
  simp [digitsValAux, hk]

theorem digitsValAux_natReprAux (n : Nat) :
    ∀ a acc, digitsValAux a (natReprAux n acc)
      = digitsValAux (a * 10 ^ (natReprAux n []).length + n) acc := by
  induction n using Nat.strong_induction_on with
  | _ n ih =>
    intro a acc
    by_cases h : n < 10
    · rw [natReprAux]
      simp only [h, dite_true]
      rw [digitsValAux_digit (digitChar_isDigit h), digitChar_toNat h]
      have hlen : (natReprAux n []).length = 1 := by
        rw [natReprAux]; simp [h]
      rw [hlen]
      norm_num
    · have hlt : n / 10 < n := Nat.div_lt_self (by omega) (by omega)
      conv_lhs => rw [natReprAux]
      simp only [h, dite_false]
      rw [ih (n / 10) hlt a (digitChar (n % 10) :: acc),
          digitsValAux_digit (digitChar_isDigit (Nat.mod_lt _ (by omega)))]
      rw [digitChar_toNat (Nat.mod_lt _ (by omega))]
      have hlen : (natReprAux n []).length = (natReprAux (n / 10) []).length + 1 := by
        conv_lhs => rw [natReprAux]
        simp only [h, dite_false]
        rw [natReprAux_eq_append]
        simp
      rw [hlen]
      have : (a * 10 ^ (natReprAux (n / 10) []).length + n / 10) * 10 + n % 10
          = a * 10 ^ ((natReprAux (n / 10) []).length + 1) + n := by
        rw [pow_succ]
        have := Nat.div_add_mod n 10
        ring_nf
        omega
      rw [this]

theorem natRepr_head_digit (n : Nat) :
    ∃ c cs, natRepr n = c :: cs ∧ c.isDigit = true := by
  match hmatch : natRepr n with
  | [] => exact absurd hmatch (natRepr_ne_nil n)
  | c :: cs =>
    exact ⟨c, cs, rfl, natRepr_all_digits n c (by rw [hmatch]; simp)⟩

theorem digitsVal_natRepr (n : Nat) : digitsVal (natRepr n) = some n := by
  obtain ⟨c, cs, heq, _⟩ := natRepr_head_digit n
  rw [heq]
  show digitsValAux 0 (c :: cs) = some n
  rw [← heq]
  unfold natRepr
  rw [digitsValAux_natReprAux n 0 []]
  simp [digitsValAux]

theorem parseU64_natRepr {n : Nat} (h : n < 2 ^ 64) : parseU64 (natRepr n) = some n := by
  obtain ⟨c, cs, heq, hd⟩ := natRepr_head_digit n
  have hplus : c ≠ '+' := by intro e; subst e; exact absurd hd (by decide)
  rw [heq]
  unfold parseU64
  simp only [hplus, if_false]
  rw [← heq, digitsVal_natRepr]
  show (if n < 2 ^ 64 then some n else none) = some n
  rw [if_pos h]

theorem parseI32_intRepr {v : Int} (hlo : -(2 ^ 31) ≤ v) (hhi : v < 2 ^ 31) :
    parseI32 (intRepr v) = some v := by
  by_cases hv : v < 0
  · have : intRepr v = '-' :: natRepr v.natAbs := by simp [intRepr, hv]
    rw [this]
    unfold parseI32
    simp only [if_pos rfl, digitsVal_natRepr]
    have hrange : v.natAbs ≤ 2 ^ 31 := by omega
    simp only [hrange, if_pos]
    congr 1
    omega
  · have hnn : 0 ≤ v := by omega
    have : intRepr v = natRepr v.toNat := by simp [intRepr, hv]
    rw [this]
    obtain ⟨c, cs, heq, hd⟩ := natRepr_head_digit v.toNat
    have hminus : c ≠ '-' := by intro e; subst e; exact absurd hd (by decide)
    have hplus : c ≠ '+' := by intro e; subst e; exact absurd hd (by decide)
    rw [heq]
    unfold parseI32
    simp only [hminus, hplus, if_false]
    rw [← heq, digitsVal_natRepr]
    have hrange : v.toNat < 2 ^ 31 := by omega
    simp only [hrange, if_pos]
    congr 1
    omega

theorem dropWhile_eq_self_of_head {p : Char → Bool} {c : Char} {cs : List Char}
    (h : p c = false) : (c :: cs).dropWhile p = c :: cs := by
  simp [List.dropWhile, h]

theorem trim_eq_self {l : List Char} (h : ∀ c ∈ l, isWS c = false) : trim l = l := by
  unfold trim
  match l with
  | [] => rfl
  | c :: cs =>
    rw [dropWhile_eq_self_of_head (h c (by simp))]
    match hrev : (c :: cs).reverse with
    | [] => exact absurd hrev (by simp)
    | d :: ds =>
      have hd : d ∈ c :: cs := by
        rw [← List.mem_reverse, hrev]; simp
      rw [dropWhile_eq_self_of_head (h d hd), ← hrev, List.reverse_reverse]

theorem trimBrackets_wrap {x : Char} {xs : List Char}
    (hx : isBracket x = false) (hlast : ∀ c ∈ x :: xs, isBracket c = false) :
    trimBrackets ('[' :: ((x :: xs) ++ [']'])) = x :: xs := by
  unfold trimBrackets
  have h1 : ('[' :: ((x :: xs) ++ [']'])).dropWhile isBracket = (x :: xs) ++ [']'] := by
    rw [List.dropWhile_cons]
    simp only [show isBracket '[' = true from rfl, if_true]
    exact dropWhile_eq_self_of_head hx
  rw [h1]
  have h2 : ((x :: xs) ++ [']']).reverse = ']' :: (x :: xs).reverse := by
    simp
  rw [h2, List.dropWhile_cons]
  simp only [show isBracket ']' = true from rfl, if_true]
  match hrev : (x :: xs).reverse with
  | [] => exact absurd hrev (by simp)
  | d :: ds =>
    have hd : d ∈ x :: xs := by
      rw [← List.mem_reverse, hrev]; simp
    rw [dropWhile_eq_self_of_head (hlast d hd), ← hrev, List.reverse_reverse]

theorem chopPre_append (p r : List Char) : chopPre p (p ++ r) = some r := by
  induction p with
  | nil => rfl
  | cons c cs ih => simp [chopPre, ih]

theorem splitOnChar_no_sep {l : List Char} (h : ∀ c ∈ l, c ≠ ',') :
    splitOnChar ',' l = [l] := by
  induction l with
  | nil => rfl
  | cons c cs ih =>
    unfold splitOnChar
    simp only [h c (by simp), if_false]
    rw [ih (fun d hd => h d (by simp [hd]))]

theorem splitOnChar_append {l : List Char} (rest : List Char)
    (h : ∀ c ∈ l, c ≠ ',') :
    splitOnChar ',' (l ++ ',' :: rest) = l :: splitOnChar ',' rest := by
  induction l with
  | nil => rfl
  | cons c cs ih =>
    show splitOnChar ',' (c :: (cs ++ ',' :: rest)) = _
    simp only [splitOnChar]
    simp only [h c (by simp), if_false]
    rw [ih (fun d hd => h d (by simp [hd]))]

theorem splitOnChar_joinComma :
    ∀ (parts : List (List Char)) (x : List Char),
      (∀ p ∈ x :: parts, ∀ c ∈ p, c ≠ ',') →
      splitOnChar ',' (joinComma (x :: parts)) = x :: parts := by
  intro parts
  induction parts with
  | nil =>
    intro x h
    exact splitOnChar_no_sep (h x (by simp))
  | cons y ys ih =>
    intro x h
    show splitOnChar ',' (x ++ ',' :: joinComma (y :: ys)) = _
    rw [splitOnChar_append _ (h x (by simp))]
    rw [ih y (fun p hp c hc => h p (by simp at hp ⊢; tauto) c hc)]

theorem mem_joinComma {c : Char} :
    ∀ {parts : List (List Char)}, c ∈ joinComma parts →
      c = ',' ∨ ∃ p ∈ parts, c ∈ p := by
  intro parts
  induction parts with
  | nil => intro h; simp [joinComma] at h
  | cons x xs ih =>
    intro h
    match xs with
    | [] =>
      simp only [joinComma] at h
      exact Or.inr ⟨x, by simp, h⟩
    | y :: ys =>
      simp only [joinComma] at h
      rcases List.mem_append.1 h with h1 | h1
      · exact Or.inr ⟨x, by simp, h1⟩
      · rcases List.mem_cons.1 h1 with h2 | h2
        · exact Or.inl h2
        · rcases ih h2 with h3 | ⟨p, hp, hcp⟩
          · exact Or.inl h3
          · exact Or.inr ⟨p, by simp at hp ⊢; tauto, hcp⟩

/-! ## Well-formed input lines and the behaviour of `feed_line` on them -/

/-- Well-formed timestamp line: the `timestamp:` key followed by the decimal
rendering of the value. -/
def tsLine (ts : Nat) : List Char := timestampPre ++ natRepr ts

/-- Well-formed signal-strength line: the `rssi:` key followed by the decimal
rendering of the value. -/
def rssiLine (r : Int) : List Char := rssiPre ++ intRepr r

/-- Well-formed bracketed payload line: the decimal renderings of the values,
comma-joined, wrapped in one pair of brackets. -/
def arrLine (vals : List Int) : List Char :=
  '[' :: (joinComma (vals.map intRepr) ++ [']'])

theorem intRepr_chars (v : Int) : ∀ c ∈ intRepr v, c.isDigit = true ∨ c = '-' := by
  intro c hc
  unfold intRepr at hc
  by_cases hv : v < 0
  · simp only [hv, if_true] at hc
    rcases List.mem_cons.1 hc with h | h
    · exact Or.inr h
    · exact Or.inl (natRepr_all_digits _ c h)
  · simp only [hv, if_false] at hc
    exact Or.inl (natRepr_all_digits _ c hc)

theorem intRepr_ne_nil (v : Int) : intRepr v ≠ [] := by
  unfold intRepr
  by_cases hv : v < 0
  · simp [hv]
  · simp only [hv, if_false]
    exact natRepr_ne_nil _

theorem intRepr_no_ws (v : Int) : ∀ c ∈ intRepr v, isWS c = false := by
  intro c hc
  rcases intRepr_chars v c hc with h | h
  · exact isWS_of_isDigit h
  · subst h; decide

theorem intRepr_no_comma (v : Int) : ∀ c ∈ intRepr v, c ≠ ',' := by
  intro c hc
  rcases intRepr_chars v c hc with h | h
  · exact ne_comma_of_isDigit h
  · subst h; decide

theorem intRepr_no_bracket (v : Int) : ∀ c ∈ intRepr v, isBracket c = false := by
  intro c hc
  rcases intRepr_chars v c hc with h | h
  · exact isBracket_of_isDigit h
  · subst h; decide

theorem trim_intRepr (v : Int) : trim (intRepr v) = intRepr v :=
  trim_eq_self (intRepr_no_ws v)

theorem trim_natRepr (n : Nat) : trim (natRepr n) = natRepr n :=
  trim_eq_self (fun c hc => isWS_of_isDigit (natRepr_all_digits n c hc))

theorem chopPre_self (p : List Char) : chopPre p p = some [] := by
  have h := chopPre_append p []
  rwa [List.append_nil] at h

theorem tsLine_not_empty (x : List Char) : (timestampPre ++ x).isEmpty = false := rfl

theorem tsLine_not_prompt (x : List Char) :
    startsWithChar (timestampPre ++ x) '>' = false := rfl

theorem chop_rssi_tsLine (x : List Char) :
    chopPre rssiPre (timestampPre ++ x) = none := rfl

theorem rssiLine_not_empty (x : List Char) : (rssiPre ++ x).isEmpty = false := rfl

theorem rssiLine_not_prompt (x : List Char) :
    startsWithChar (rssiPre ++ x) '>' = false := rfl

theorem bracket_not_empty (rest : List Char) : ('[' :: rest).isEmpty = false := rfl

theorem bracket_not_prompt (rest : List Char) :
    startsWithChar ('[' :: rest) '>' = false := rfl

theorem chop_rssi_bracket (rest : List Char) :
    chopPre rssiPre ('[' :: rest) = none := rfl

theorem chop_ts_bracket (rest : List Char) :
    chopPre timestampPre ('[' :: rest) = none := rfl

theorem marker_not_bracket (rest : List Char) :
    startsWithStr ('[' :: rest) csiMarker = false := rfl

theorem bracket_starts (rest : List Char) :
    startsWithChar ('[' :: rest) '[' = true := rfl

/-- Feeding a well-formed timestamp line stores the timestamp and emits
nothing. -/
theorem feed_ts (s : CsiCliParser) {ts : Nat} (h : ts < 2 ^ 64) :
    feed_line s (tsLine ts) = ({ s with current_timestamp := some ts }, none) := by
  have htrim : trim (timestampPre ++ natRepr ts) = timestampPre ++ natRepr ts := by
    apply trim_eq_self
    intro c hc
    rcases List.mem_append.1 hc with h1 | h1
    · exact (by decide : ∀ c ∈ timestampPre, isWS c = false) c h1
    · exact isWS_of_isDigit (natRepr_all_digits ts c h1)
  show feed_line s (timestampPre ++ natRepr ts) = _
  unfold feed_line
  simp only [htrim, tsLine_not_empty, tsLine_not_prompt, Bool.or_self,
    Bool.or_false, if_false, chop_rssi_tsLine, chopPre_append]
  rw [trim_natRepr, parseU64_natRepr h]
  simp

/-- Feeding a well-formed signal-strength line stores the value and emits
nothing. -/
theorem feed_rssi (s : CsiCliParser) {r : Int} (hlo : -(2 ^ 31) ≤ r) (hhi : r < 2 ^ 31) :
    feed_line s (rssiLine r) = ({ s with current_rssi := some r }, none) := by
  have htrim : trim (rssiPre ++ intRepr r) = rssiPre ++ intRepr r := by
    apply trim_eq_self
    intro c hc
    rcases List.mem_append.1 hc with h1 | h1
    · exact (by decide : ∀ c ∈ rssiPre, isWS c = false) c h1
    · exact intRepr_no_ws r c h1
  show feed_line s (rssiPre ++ intRepr r) = _
  unfold feed_line
  simp only [htrim, rssiLine_not_empty, rssiLine_not_prompt, Bool.or_self,
    Bool.or_false, if_false, chopPre_append]
  rw [trim_intRepr, parseI32_intRepr hlo hhi]
  simp

/-- Feeding the raw-data marker line arms the payload flag and emits
nothing. -/
theorem feed_marker (s : CsiCliParser) :
    feed_line s csiMarker = ({ s with waiting_for_csi_line := true }, none) := rfl

/-- Evaluation of `feed_line` on any line whose trimmed form is bracketed,
when the armed flag is set: the flag is cleared unconditionally, and the
parsed payload is accepted only at the expected length with complete
metadata. -/
theorem feed_line_bracket (s : CsiCliParser) {line rest : List Char}
    (hline : trim line = '[' :: rest) (hw : s.waiting_for_csi_line = true) :
    feed_line s line =
      (let vals := parseCsiTokens (splitOnChar ',' (trimBrackets ('[' :: rest)))
       if vals.length ≠ 128 then ({ s with waiting_for_csi_line := false }, none)
       else
         match s.current_timestamp, s.current_rssi with
         | some ts, some r =>
             ({ s with current_timestamp := none, current_rssi := none,
                       waiting_for_csi_line := false }, some ⟨ts, r, vals⟩)
         | _, _ => ({ s with waiting_for_csi_line := false }, none)) := by
  unfold feed_line
  simp only [hline, bracket_not_empty, bracket_not_prompt, Bool.or_self,
    Bool.or_false, if_false, chop_rssi_bracket, chop_ts_bracket,
    marker_not_bracket, bracket_starts, hw, Bool.true_and, if_true]
  simp

theorem joinComma_ne_nil {x : List Char} (xs : List (List Char)) (hx : x ≠ []) :
    joinComma (x :: xs) ≠ [] := by
  match xs with
  | [] => exact hx
  | y :: ys =>
    show x ++ ',' :: joinComma (y :: ys) ≠ []
    simp

theorem joined_no_bracket (vals : List Int) :
    ∀ c ∈ joinComma (vals.map intRepr), isBracket c = false := by
  intro c hc
  rcases mem_joinComma hc with h | ⟨p, hp, hcp⟩
  · subst h; decide
  · obtain ⟨v, _, hv⟩ := List.mem_map.1 hp
    subst hv
    exact intRepr_no_bracket v c hcp

theorem joined_no_ws (vals : List Int) :
    ∀ c ∈ joinComma (vals.map intRepr), isWS c = false := by
  intro c hc
  rcases mem_joinComma hc with h | ⟨p, hp, hcp⟩
  · subst h; decide
  · obtain ⟨v, _, hv⟩ := List.mem_map.1 hp
    subst hv
    exact intRepr_no_ws v c hcp

theorem trim_arrLine (vals : List Int) : trim (arrLine vals) = arrLine vals := by
  apply trim_eq_self
  intro c hc
  unfold arrLine at hc
  rcases List.mem_cons.1 hc with h | h
  · subst h; decide
  · rcases List.mem_append.1 h with h1 | h1
    · exact joined_no_ws vals c h1
    · simp at h1; subst h1; decide

theorem trimBrackets_arrLine {vals : List Int} (hne : vals ≠ []) :
    trimBrackets (arrLine vals) = joinComma (vals.map intRepr) := by
  unfold arrLine
  have hjne : joinComma (vals.map intRepr) ≠ [] := by
    match vals with
    | v :: vs =>
      exact joinComma_ne_nil _ (intRepr_ne_nil v)
  match hj : joinComma (vals.map intRepr) with
  | [] => exact absurd hj hjne
  | x :: xs =>
    have hall : ∀ c ∈ x :: xs, isBracket c = false := by
      rw [← hj]; exact joined_no_bracket vals
    exact trimBrackets_wrap (hall x (by simp)) hall

theorem split_arrLine (vals : List Int) (hne : vals ≠ []) :
    splitOnChar ',' (joinComma (vals.map intRepr)) = vals.map intRepr := by
  match vals with
  | v :: vs =>
    apply splitOnChar_joinComma
    intro p hp c hc
    rcases List.mem_cons.1 hp with h | h
    · subst h; exact intRepr_no_comma v c hc
    · obtain ⟨w, _, hw⟩ := List.mem_map.1 h
      subst hw
      exact intRepr_no_comma w c hc

theorem parseCsiTokens_map {vals : List Int}
    (h : ∀ v ∈ vals, -(2 ^ 31) ≤ v ∧ v < 2 ^ 31) :
    parseCsiTokens (vals.map intRepr) = vals := by
  induction vals with
  | nil => rfl
  | cons v vs ih =>
    show parseCsiTokens (intRepr v :: vs.map intRepr) = v :: vs
    unfold parseCsiTokens
    rw [trim_intRepr]
    have hne : (intRepr v).isEmpty = false := by
      match hv : intRepr v with
      | [] => exact absurd hv (intRepr_ne_nil v)
      | c :: cs => rfl
    simp only [hne, Bool.false_eq_true, if_false]
    obtain ⟨hlo, hhi⟩ := h v (by simp)
    rw [parseI32_intRepr hlo hhi]
    rw [ih (fun w hw => h w (by simp [hw]))]

/-- Payload acceptance with complete metadata: the frame is emitted and all
pending state is cleared. -/
theorem feed_arr_complete (s : CsiCliParser) {ts : Nat} {r : Int} {vals : List Int}
    (hw : s.waiting_for_csi_line = true)
    (hts : s.current_timestamp = some ts) (hr : s.current_rssi = some r)
    (hlen : vals.length = 128)
    (hrange : ∀ v ∈ vals, -(2 ^ 31) ≤ v ∧ v < 2 ^ 31) :
    feed_line s (arrLine vals) = (⟨none, none, false⟩, some ⟨ts, r, vals⟩) := by
  have hvne : vals ≠ [] := by intro h; subst h; simp at hlen
  have harr : arrLine vals = '[' :: (joinComma (vals.map intRepr) ++ [']']) := rfl
  have hb := @feed_line_bracket s (arrLine vals)
    (joinComma (vals.map intRepr) ++ [']'])
    (by rw [trim_arrLine]; exact harr) hw
  rw [hb, show ('[' :: (joinComma (vals.map intRepr) ++ [']'])) = arrLine vals from rfl,
    trimBrackets_arrLine hvne, split_arrLine vals hvne, parseCsiTokens_map hrange]
  simp only [hlen, ne_eq, not_true_eq_false, if_false, hts, hr]

/-- Payload acceptance with incomplete metadata: nothing is emitted and only
the armed flag changes — the pending fields are left as they were. -/
theorem feed_arr_incomplete (s : CsiCliParser) {vals : List Int}
    (hw : s.waiting_for_csi_line = true)
    (hmiss : s.current_timestamp = none ∨ s.current_rssi = none)
    (hlen : vals.length = 128)
    (hrange : ∀ v ∈ vals, -(2 ^ 31) ≤ v ∧ v < 2 ^ 31) :
    feed_line s (arrLine vals) = ({ s with waiting_for_csi_line := false }, none) := by
  have hvne : vals ≠ [] := by intro h; subst h; simp at hlen
  have harr : arrLine vals = '[' :: (joinComma (vals.map intRepr) ++ [']']) := rfl
  have hb := @feed_line_bracket s (arrLine vals)
    (joinComma (vals.map intRepr) ++ [']'])
    (by rw [trim_arrLine]; exact harr) hw
  rw [hb, show ('[' :: (joinComma (vals.map intRepr) ++ [']'])) = arrLine vals from rfl,
    trimBrackets_arrLine hvne, split_arrLine vals hvne, parseCsiTokens_map hrange]
  simp only [hlen, ne_eq, not_true_eq_false, if_false]
  rcases hmiss with h | h
  · rw [h]
  · rw [h]
    cases hmt : s.current_timestamp <;> rfl

/-- Any bracketed line whose parsed payload has the wrong element count is
rejected: nothing is emitted and only the armed flag is cleared. -/
theorem feed_arr_badlen (s : CsiCliParser) {line rest : List Char}
    (hw : s.waiting_for_csi_line = true)
    (hline : trim line = '[' :: rest)
    (hbad : (parseCsiTokens (splitOnChar ',' (trimBrackets ('[' :: rest)))).length ≠ 128) :
    feed_line s line = ({ s with waiting_for_csi_line := false }, none) := by
  rw [feed_line_bracket s hline hw]
  simp [hbad]

/-- Feeding the four well-formed lines (timestamp, signal strength, marker,
payload) in order, from any starting state: the first three feeds return no
frame and accumulate state, the fourth emits exactly the fed frame and resets
the parser. -/
theorem feed_seq (s : CsiCliParser) {ts : Nat} {r : Int} {vals : List Int}
    (hts : ts < 2 ^ 64) (hlo : -(2 ^ 31) ≤ r) (hhi : r < 2 ^ 31)
    (hlen : vals.length = 128)
    (hrange : ∀ v ∈ vals, -(2 ^ 31) ≤ v ∧ v < 2 ^ 31) :
    feed_line s (tsLine ts) = ({ s with current_timestamp := some ts }, none) ∧
    feed_line { s with current_timestamp := some ts } (rssiLine r)
      = ({ s with current_timestamp := some ts, current_rssi := some r }, none) ∧
    feed_line { s with current_timestamp := some ts, current_rssi := some r } csiMarker
      = ({ s with current_timestamp := some ts, current_rssi := some r,
                  waiting_for_csi_line := true }, none) ∧
    feed_line { s with current_timestamp := some ts, current_rssi := some r,
                       waiting_for_csi_line := true } (arrLine vals)
      = (⟨none, none, false⟩, some ⟨ts, r, vals⟩) :=
  ⟨feed_ts s hts, feed_rssi _ hlo hhi, feed_marker _,
   feed_arr_complete _ rfl rfl rfl hlen hrange⟩

/-- Chained form of `feed_seq`: the first three feeds return no frame, the
fourth returns the frame, each feed starting from the state the previous one
produced. -/
theorem feed_seq_chain (s : CsiCliParser) {ts : Nat} {r : Int} {vals : List Int}
    (hts : ts < 2 ^ 64) (hlo : -(2 ^ 31) ≤ r) (hhi : r < 2 ^ 31)
    (hlen : vals.length = 128)
    (hrange : ∀ v ∈ vals, -(2 ^ 31) ≤ v ∧ v < 2 ^ 31) :
    (feed_line s (tsLine ts)).2 = none ∧
    (feed_line (feed_line s (tsLine ts)).1 (rssiLine r)).2 = none ∧
    (feed_line (feed_line (feed_line s (tsLine ts)).1 (rssiLine r)).1 csiMarker).2
      = none ∧
    feed_line (feed_line (feed_line (feed_line s (tsLine ts)).1 (rssiLine r)).1
        csiMarker).1 (arrLine vals)
      = (⟨none, none, false⟩, some ⟨ts, r, vals⟩) := by
  obtain ⟨h1, h2, h3, h4⟩ := feed_seq s hts hlo hhi hlen hrange
  simp only [h1, h2, h3, h4]
  exact ⟨trivial, trivial, trivial, trivial⟩

/-- C1: for every well-formed triple (timestamp, signal strength, payload of
exactly 128 integers) fed as four lines in order (timestamp line,
signal-strength line, raw-data marker line, bracketed array line),
`feed_line` returns `none` for the first three lines and on the fourth
returns exactly one frame whose `esp_timestamp`, `rssi` and `csi_values`
equal the fed values. -/
theorem c1_wellformed_sequence_emits_exact_frame (s : CsiCliParser) (ts : Nat)
    (r : Int) (vals : List Int)
    (hts : ts < 2 ^ 64) (hlo : -(2 ^ 31) ≤ r) (hhi : r < 2 ^ 31)
    (hlen : vals.length = 128)
    (hrange : ∀ v ∈ vals, -(2 ^ 31) ≤ v ∧ v < 2 ^ 31) :
    (feed_line s (tsLine ts)).2 = none ∧
    (feed_line (feed_line s (tsLine ts)).1 (rssiLine r)).2 = none ∧
    (feed_line (feed_line (feed_line s (tsLine ts)).1 (rssiLine r)).1 csiMarker).2
      = none ∧
    feed_line (feed_line (feed_line (feed_line s (tsLine ts)).1 (rssiLine r)).1
        csiMarker).1 (arrLine vals)
      = (⟨none, none, false⟩, some ⟨ts, r, vals⟩) :=
  feed_seq_chain s hts hlo hhi hlen hrange

theorem c1_wellformed_sequence_emits_exact_frame_witness :
    ((1 : Nat) < 2 ^ 64 ∧ -(2 ^ 31) ≤ (-2 : Int) ∧ (-2 : Int) < 2 ^ 31 ∧
      (List.replicate 128 (0 : Int)).length = 128 ∧
      (∀ v ∈ List.replicate 128 (0 : Int), -(2 ^ 31) ≤ v ∧ v < 2 ^ 31)) ∧
    feed_line (feed_line (feed_line (feed_line CsiCliParser.new (tsLine 1)).1
        (rssiLine (-2))).1 csiMarker).1 (arrLine (List.replicate 128 0))
      = (⟨none, none, false⟩, some ⟨1, -2, List.replicate 128 0⟩) :=
  ⟨⟨by norm_num, by norm_num, by norm_num, by simp,
    fun v hv => by simp at hv; subst hv; constructor <;> norm_num⟩,
   (c1_wellformed_sequence_emits_exact_frame CsiCliParser.new 1 (-2)
      (List.replicate 128 0) (by norm_num) (by norm_num) (by norm_num) (by simp)
      (fun v hv => by simp at hv; subst hv; constructor <;> norm_num)).2.2.2⟩

/-- C2 counterexample: with the armed flag set, a pending timestamp and no
pending signal strength, feeding a 128-element bracketed line emits nothing
but does NOT clear the pending timestamp — the claim's "all pending fields
cleared" fails at this input. -/
theorem c2_counterexample :
    ¬ ((feed_line ⟨some 5, none, true⟩ (arrLine (List.replicate 128 0))).2 = none ∧
       (feed_line ⟨some 5, none, true⟩
          (arrLine (List.replicate 128 0))).1.current_timestamp = none ∧
       (feed_line ⟨some 5, none, true⟩
          (arrLine (List.replicate 128 0))).1.current_rssi = none) := by
  have h := @feed_arr_incomplete ⟨some 5, none, true⟩
    (List.replicate 128 0) rfl (Or.inr rfl) (by simp)
    (fun v hv => by simp at hv; subst hv; constructor <;> norm_num)
  rw [h]
  simp

/-- C2 (amended): with the armed flag set and incomplete metadata, feeding a
correct-length bracketed line emits no frame and leaves the pending fields
unchanged — only the armed flag is cleared; pending metadata is cleared only
when a frame is emitted. -/
theorem c2_incomplete_metadata_emits_nothing (s : CsiCliParser) (vals : List Int)
    (hw : s.waiting_for_csi_line = true)
    (hmiss : s.current_timestamp = none ∨ s.current_rssi = none)
    (hlen : vals.length = 128)
    (hrange : ∀ v ∈ vals, -(2 ^ 31) ≤ v ∧ v < 2 ^ 31) :
    feed_line s (arrLine vals) = ({ s with waiting_for_csi_line := false }, none) :=
  feed_arr_incomplete s hw hmiss hlen hrange

theorem c2_incomplete_metadata_emits_nothing_witness :
    ((⟨some 5, none, true⟩ : CsiCliParser).waiting_for_csi_line = true ∧
      ((⟨some 5, none, true⟩ : CsiCliParser).current_timestamp = none ∨
       (⟨some 5, none, true⟩ : CsiCliParser).current_rssi = none) ∧
      (List.replicate 128 (0 : Int)).length = 128) ∧
    feed_line ⟨some 5, none, true⟩ (arrLine (List.replicate 128 0))
      = (⟨some 5, none, false⟩, none) :=
  ⟨⟨rfl, Or.inr rfl, by simp⟩,
   c2_incomplete_metadata_emits_nothing ⟨some 5, none, true⟩
     (List.replicate 128 0) rfl (Or.inr rfl) (by simp)
     (fun v hv => by simp at hv; subst hv; constructor <;> norm_num)⟩

/-- C3: with the armed flag set, feeding a bracketed line whose parsed element
count differs from 128 returns no frame and clears the armed flag, and a
subsequent complete well-formed sequence still produces its frame. -/
theorem c3_wrong_count_rejected_and_recovers (s : CsiCliParser)
    (line rest : List Char)
    (hw : s.waiting_for_csi_line = true)
    (hline : trim line = '[' :: rest)
    (hbad : (parseCsiTokens (splitOnChar ','
        (trimBrackets ('[' :: rest)))).length ≠ 128)
    (ts : Nat) (r : Int) (vals : List Int)
    (hts : ts < 2 ^ 64) (hlo : -(2 ^ 31) ≤ r) (hhi : r < 2 ^ 31)
    (hlen : vals.length = 128)
    (hrange : ∀ v ∈ vals, -(2 ^ 31) ≤ v ∧ v < 2 ^ 31) :
    feed_line s line = ({ s with waiting_for_csi_line := false }, none) ∧
    ((feed_line { s with waiting_for_csi_line := false } (tsLine ts)).2 = none ∧
     (feed_line (feed_line { s with waiting_for_csi_line := false }
         (tsLine ts)).1 (rssiLine r)).2 = none ∧
     (feed_line (feed_line (feed_line { s with waiting_for_csi_line := false }
         (tsLine ts)).1 (rssiLine r)).1 csiMarker).2 = none ∧
     feed_line (feed_line (feed_line (feed_line
         { s with waiting_for_csi_line := false } (tsLine ts)).1
         (rssiLine r)).1 csiMarker).1 (arrLine vals)
       = (⟨none, none, false⟩, some ⟨ts, r, vals⟩)) :=
  ⟨feed_arr_badlen s hw hline hbad,
   feed_seq_chain { s with waiting_for_csi_line := false } hts hlo hhi hlen hrange⟩

theorem c3_wrong_count_rejected_and_recovers_witness :
    ((⟨some 5, some 7, true⟩ : CsiCliParser).waiting_for_csi_line = true ∧
      trim ("[1,2,3]".data) = '[' :: ("1,2,3]".data) ∧
      (parseCsiTokens (splitOnChar ','
        (trimBrackets ('[' :: ("1,2,3]".data))))).length ≠ 128) ∧
    feed_line ⟨some 5, some 7, true⟩ ("[1,2,3]".data)
      = (⟨some 5, some 7, false⟩, none) ∧
    feed_line (feed_line (feed_line (feed_line
        (⟨some 5, some 7, false⟩ : CsiCliParser) (tsLine 3)).1
        (rssiLine 4)).1 csiMarker).1 (arrLine (List.replicate 128 1))
      = (⟨none, none, false⟩, some ⟨3, 4, List.replicate 128 1⟩) := by
  have h := c3_wrong_count_rejected_and_recovers ⟨some 5, some 7, true⟩
    ("[1,2,3]".data) ("1,2,3]".data) rfl (by decide) (by decide)
    3 4 (List.replicate 128 1) (by norm_num) (by norm_num) (by norm_num)
    (by simp) (fun v hv => by simp at hv; subst hv; constructor <;> norm_num)
  exact ⟨⟨rfl, by decide, by decide⟩, h.1, h.2.2.2.2⟩

/-- Every frame the parser emits carries exactly 128 raw values: the only
emitting branch of `feed_line` is guarded by the length check. -/
theorem feed_line_emit_length {s : CsiCliParser} {line : List Char}
    {s' : CsiCliParser} {p : CsiPacket}
    (h : feed_line s line = (s', some p)) : p.csi_values.length = 128 := by
  unfold feed_line at h
  dsimp only at h
  iterate 8 (all_goals (try split at h))
  all_goals
    first
      | (simp_all; done)
      | (simp only [Prod.mk.injEq, Option.some.injEq] at h
         obtain ⟨h1, h2⟩ := h
         subst h2
         simpa using
           ‹¬(parseCsiTokens (splitOnChar ',' (trimBrackets (trim line)))).length ≠ 128›)

theorem get_iq_pairs_length (l : List Int) :
    (get_iq_pairs l).length = l.length / 2 := by
  generalize hn : l.length = n
  induction n using Nat.strong_induction_on generalizing l with
  | _ n ih =>
    match l with
    | [] => simp [get_iq_pairs] at hn ⊢; omega
    | [a] => simp [get_iq_pairs] at hn ⊢; omega
    | a :: b :: rest =>
      show (get_iq_pairs (a :: b :: rest)).length = n / 2
      have hrec : get_iq_pairs (a :: b :: rest) = (a, b) :: get_iq_pairs rest := rfl
      rw [hrec]
      simp only [List.length_cons]
      rw [ih rest.length (by simp at hn; omega) rest rfl]
      simp at hn
      omega

/-- C8: frames constructed by the parser always have an even-length raw-value
sequence, and the derived amplitude and phase sequences are pure functions of
`csi_values` of length `csi_values.length / 2` (in this embedding repeated
calls are identical by definition — the functions take no other state). -/
theorem c8_even_payload_and_derived_lengths :
    (∀ (s : CsiCliParser) (line : List Char) (s' : CsiCliParser) (p : CsiPacket),
        feed_line s line = (s', some p) → p.csi_values.length % 2 = 0) ∧
    (∀ p : CsiPacket,
        (get_amplitudes p).length = p.csi_values.length / 2 ∧
        (get_phases p).length = p.csi_values.length / 2) := by
  constructor
  · intro s line s' p h
    rw [feed_line_emit_length h]
  · intro p
    unfold get_amplitudes get_phases
    simp [get_iq_pairs_length]

theorem c8_even_payload_and_derived_lengths_witness :
    feed_line ⟨some 1, some (-2), true⟩ (arrLine (List.replicate 128 0))
      = (⟨none, none, false⟩, some ⟨1, -2, List.replicate 128 0⟩) ∧
    (⟨1, -2, List.replicate 128 0⟩ : CsiPacket).csi_values.length % 2 = 0 ∧
    (get_amplitudes ⟨1, -2, List.replicate 128 0⟩).length
      = (⟨1, -2, List.replicate 128 0⟩ : CsiPacket).csi_values.length / 2 ∧
    (get_phases ⟨1, -2, List.replicate 128 0⟩).length
      = (⟨1, -2, List.replicate 128 0⟩ : CsiPacket).csi_values.length / 2 :=
  have hfeed : feed_line ⟨some 1, some (-2), true⟩ (arrLine (List.replicate 128 0))
      = (⟨none, none, false⟩, some ⟨1, -2, List.replicate 128 0⟩) :=
    feed_arr_complete _ rfl rfl rfl (by simp)
      (fun v hv => by simp at hv; subst hv; constructor <;> norm_num)
  ⟨hfeed,
   c8_even_payload_and_derived_lengths.1 _ _ _ _ hfeed,
   (c8_even_payload_and_derived_lengths.2 _).1,
   (c8_even_payload_and_derived_lengths.2 _).2⟩

theorem get?_isSome_of_lt {α : Type} :
    ∀ (l : List α) (k : Nat), k < l.length → (l.get? k).isSome = true := by
  intro l
  induction l with
  | nil => intro k hk; simp at hk
  | cons a as ih =>
    intro k hk
    match k with
    | 0 => rfl
    | k + 1 =>
      exact ih k (by simp at hk; omega)

theorem mapM_option_isSome {α β : Type} (f : α → Option β) :
    ∀ l : List α, (∀ a ∈ l, (f a).isSome = true) → (l.mapM f).isSome = true := by
  intro l
  induction l with
  | nil => intro _; rfl
  | cons a as ih =>
    intro h
    rw [List.mapM_cons]
    have ha := h a (by simp)
    match hfa : f a with
    | none => rw [hfa] at ha; simp at ha
    | some b =>
      have has := ih (fun x hx => h x (by simp [hx]))
      match has' : as.mapM f with
      | none => rw [has'] at has; simp at has
      | some bs => simp [hfa, has']

/-- C10: for every packet the parser emits, the recording worker's
heatmap-row loop — which indexes `get_amplitudes()` at every subcarrier index
`0..63` without a bounds check — stays in range, because emitted packets have
exactly 128 raw values and hence 64 amplitudes. -/
theorem c10_heatmap_row_indexing_safe {s : CsiCliParser} {line : List Char}
    {s' : CsiCliParser} {p : CsiPacket}
    (h : feed_line s line = (s', some p)) :
    (∀ i, i < 64 → i < (get_amplitudes p).length) ∧
    (buildHeatmapRow p).isSome = true := by
  have hlen : p.csi_values.length = 128 := feed_line_emit_length h
  have hamp : (get_amplitudes p).length = 64 := by
    unfold get_amplitudes
    simp [get_iq_pairs_length, hlen]
  constructor
  · intro i hi
    rw [hamp]
    exact hi
  · unfold buildHeatmapRow
    apply mapM_option_isSome
    intro k hk
    simp only [List.mem_range] at hk
    have hsome : ((get_amplitudes p).get? k).isSome = true :=
      get?_isSome_of_lt _ k (by rw [hamp]; exact hk)
    obtain ⟨x, hx⟩ := Option.isSome_iff_exists.1 hsome
    rw [hx]
    rfl

theorem c10_heatmap_row_indexing_safe_witness :
    feed_line ⟨some 9, some (-1), true⟩ (arrLine (List.replicate 128 2))
      = (⟨none, none, false⟩, some ⟨9, -1, List.replicate 128 2⟩) ∧
    (∀ i, i < 64 → i < (get_amplitudes ⟨9, -1, List.replicate 128 2⟩).length) ∧
    (buildHeatmapRow ⟨9, -1, List.replicate 128 2⟩).isSome = true :=
  have hfeed : feed_line ⟨some 9, some (-1), true⟩ (arrLine (List.replicate 128 2))
      = (⟨none, none, false⟩, some ⟨9, -1, List.replicate 128 2⟩) :=
    feed_arr_complete _ rfl rfl rfl (by simp)
      (fun v hv => by simp at hv; subst hv; constructor <;> norm_num)
  ⟨hfeed,
   (c10_heatmap_row_indexing_safe hfeed).1,
   (c10_heatmap_row_indexing_safe hfeed).2⟩

/-- Tail of a comma-join: separator then part, folded to the right (proof
helper relating the writer's left fold to `joinComma`). -/
def tailJoin (parts : List (List Char)) : List Char :=
  parts.foldr (fun p acc => ',' :: (p ++ acc)) []

theorem foldl_write_eq_tailJoin (vals : List Int) :
    ∀ init : List Char,
      vals.foldl (fun line v => line ++ ',' :: intRepr v) init
        = init ++ tailJoin (vals.map intRepr) := by
  induction vals with
  | nil => intro init; simp [tailJoin]
  | cons v vs ih =>
    intro init
    show vs.foldl (fun line v => line ++ ',' :: intRepr v) (init ++ ',' :: intRepr v)
        = _
    rw [ih]
    show _ = init ++ (',' :: (intRepr v ++ tailJoin (vs.map intRepr)))
    simp

theorem joinComma_eq_tailJoin (x : List Char) :
    ∀ parts : List (List Char), joinComma (x :: parts) = x ++ tailJoin parts := by
  intro parts
  induction parts generalizing x with
  | nil => simp [joinComma, tailJoin]
  | cons y ys ih =>
    show x ++ ',' :: joinComma (y :: ys) = x ++ tailJoin (y :: ys)
    rw [ih y]
    rfl

theorem write_csv_line_eq_joinComma (p : CsiPacket) :
    write_csv_line p
      = joinComma (natRepr p.esp_timestamp :: intRepr p.rssi
          :: p.csi_values.map intRepr) := by
  unfold write_csv_line
  rw [foldl_write_eq_tailJoin, joinComma_eq_tailJoin]
  simp [tailJoin]

theorem mapM_parseI32_map {vals : List Int}
    (h : ∀ v ∈ vals, -(2 ^ 31) ≤ v ∧ v < 2 ^ 31) :
    (vals.map intRepr).mapM parseI32 = some vals := by
  induction vals with
  | nil => rfl
  | cons v vs ih =>
    show ((intRepr v :: vs.map intRepr).mapM parseI32) = some (v :: vs)
    rw [List.mapM_cons]
    obtain ⟨hlo, hhi⟩ := h v (by simp)
    rw [parseI32_intRepr hlo hhi, ih (fun w hw => h w (by simp [hw]))]
    rfl

/-- C4: serializing a frame with `write_csv_line` and decoding the row back
(field 0 as `u64`, field 1 as `i32`, fields 2 onward as `i32`) reproduces the
identical integers — the codec is lossless for integers. -/
theorem c4_tabular_codec_roundtrip (p : CsiPacket)
    (hts : p.esp_timestamp < 2 ^ 64)
    (hlo : -(2 ^ 31) ≤ p.rssi) (hhi : p.rssi < 2 ^ 31)
    (hvals : ∀ v ∈ p.csi_values, -(2 ^ 31) ≤ v ∧ v < 2 ^ 31) :
    decodeRow (write_csv_line p)
      = some (p.esp_timestamp, p.rssi, p.csi_values) := by
  rw [write_csv_line_eq_joinComma]
  unfold decodeRow
  rw [splitOnChar_joinComma (intRepr p.rssi :: p.csi_values.map intRepr)
    (natRepr p.esp_timestamp) ?hfree]
  case hfree =>
    intro q hq c hc
    rcases List.mem_cons.1 hq with h | h
    · subst h
      exact fun he => ne_comma_of_isDigit (natRepr_all_digits _ c hc) he
    · rcases List.mem_cons.1 h with h1 | h1
      · subst h1
        exact intRepr_no_comma _ c hc
      · obtain ⟨w, _, hw⟩ := List.mem_map.1 h1
        subst hw
        exact intRepr_no_comma w c hc
  simp only [List.map_cons, trim_natRepr, trim_intRepr]
  have hmap : (p.csi_values.map intRepr).map trim = p.csi_values.map intRepr := by
    rw [List.map_map]
    exact List.map_congr_left (fun a _ => trim_intRepr a)
  rw [hmap, parseU64_natRepr hts, parseI32_intRepr hlo hhi, mapM_parseI32_map hvals]

theorem c4_tabular_codec_roundtrip_witness :
    ((⟨7, -3, [1, -2]⟩ : CsiPacket).esp_timestamp < 2 ^ 64 ∧
      -(2 ^ 31) ≤ (⟨7, -3, [1, -2]⟩ : CsiPacket).rssi ∧
      (⟨7, -3, [1, -2]⟩ : CsiPacket).rssi < 2 ^ 31) ∧
    decodeRow (write_csv_line ⟨7, -3, [1, -2]⟩) = some (7, -3, [1, -2]) :=
  ⟨⟨by norm_num, by norm_num, by norm_num⟩,
   c4_tabular_codec_roundtrip ⟨7, -3, [1, -2]⟩ (by norm_num) (by norm_num)
     (by norm_num)
     (fun v hv => by
       simp at hv
       rcases hv with h | h <;> subst h <;> constructor <;> norm_num)⟩

theorem qtrunc_intCast (n : Int) : qtrunc (n : ℚ) = n := by
  unfold qtrunc
  by_cases h : (0 : ℚ) ≤ (n : ℚ)
  · rw [if_pos h, Int.floor_intCast]
  · rw [if_neg h, Int.ceil_intCast]

theorem roundAway_bounds {x : ℚ} (h0 : 0 ≤ x) (h100 : x ≤ 100) :
    0 ≤ roundAway x ∧ roundAway x ≤ 100 := by
  unfold roundAway
  rw [if_pos h0]
  constructor
  · exact Int.le_floor.2 (by push_cast; linarith)
  · have hlt : ⌊x + 1 / 2⌋ < 101 :=
      Int.floor_lt.2 (by push_cast; linarith)
    omega

theorem toU8_finite_int {n : Int} (h0 : 0 ≤ n) (h100 : n ≤ 100) :
    F32.toU8 (F32.finite (n : ℚ)) ≤ 100 := by
  show (let r := qtrunc (n : ℚ);
        if r < 0 then 0 else if 255 < r then 255 else r.toNat) ≤ 100
  rw [qtrunc_intCast]
  rw [if_neg (by omega), if_neg (by omega)]
  omega

/-- Every cell pass 2 produces is at most 100, whatever the inputs: the clamp
bounds the finite case, the infinities clamp to the endpoints, and `nan`
casts to 0. -/
theorem scaleCell_le_100 (gmin range a : F32) : scaleCell gmin range a ≤ 100 := by
  unfold scaleCell
  cases hx : F32.fdiv (F32.fsub a gmin) range with
  | finite q =>
    show F32.toU8 (F32.fround (F32.fmul (F32.finite (min (max q 0) 1))
      (F32.finite 100))) ≤ 100
    show F32.toU8 (F32.finite ((roundAway (min (max q 0) 1 * 100) : Int) : ℚ)) ≤ 100
    have hc0 : 0 ≤ min (max q 0) 1 := le_min (le_max_right q 0) (by norm_num)
    have hc1 : min (max q 0) 1 ≤ 1 := min_le_right _ _
    obtain ⟨hr0, hr1⟩ := @roundAway_bounds
      (min (max q 0) 1 * 100) (by positivity) (by nlinarith)
    exact toU8_finite_int hr0 hr1
  | posInf =>
    show F32.toU8 (F32.finite ((roundAway ((1 : ℚ) * 100) : Int) : ℚ)) ≤ 100
    obtain ⟨hr0, hr1⟩ := @roundAway_bounds ((1 : ℚ) * 100) (by norm_num) (by norm_num)
    exact toU8_finite_int hr0 hr1
  | negInf =>
    show F32.toU8 (F32.finite ((roundAway ((0 : ℚ) * 100) : Int) : ℚ)) ≤ 100
    obtain ⟨hr0, hr1⟩ := @roundAway_bounds ((0 : ℚ) * 100) (by norm_num) (by norm_num)
    exact toU8_finite_int hr0 hr1
  | nan =>
    show (0 : Nat) ≤ 100
    exact Nat.zero_le _

/-- Successful strict read: when every record has exactly the header's field
count, the record stream yields all of them unchanged. -/
theorem mapM_readRecord_full {hl : Nat} :
    ∀ {records : List (List F32)}, (∀ r ∈ records, r.length = hl) →
      records.mapM (readRecord hl) = some records := by
  intro records
  induction records with
  | nil => intro _; rfl
  | cons r rs ih =>
    intro h
    rw [List.mapM_cons]
    have hr : readRecord hl r = some r := by
      unfold readRecord
      rw [if_pos (h r (by simp))]
    rw [hr, ih (fun x hx => h x (by simp [hx]))]
    rfl

/-- Failing strict read: one record of the wrong width fails the whole
stream. -/
theorem mapM_option_eq_none {α β : Type} (f : α → Option β) :
    ∀ l : List α, (∃ a ∈ l, f a = none) → l.mapM f = none := by
  intro l
  induction l with
  | nil => rintro ⟨a, ha, _⟩; simp at ha
  | cons a as ih =>
    rintro ⟨b, hb, hfb⟩
    rw [List.mapM_cons]
    rcases List.mem_cons.1 hb with h | h
    · subst h
      rw [hfb]
      rfl
    · cases hfa : f a with
      | none => rfl
      | some c =>
        rw [ih ⟨b, h, hfb⟩]
        rfl

/-- C5: whenever the tracked global minimum or maximum of the squared
amplitudes is non-finite, or the maximum is at most the minimum, the heatmap
normalizer returns an all-zero grid of the decoded input's shape (one row per
record, one column per subcarrier) instead of dividing by zero. -/
theorem c5_degenerate_range_zero_grid (hl : Nat) (records : List (List F32))
    (h4 : 4 ≤ hl) (hns : numSub hl ≠ 0) (hne : records ≠ [])
    (hfull : ∀ r ∈ records, r.length = hl)
    (hguard : (globalMin (numSub hl) records).isFinite = false ∨
              (globalMax (numSub hl) records).isFinite = false ∨
              F32.fle (globalMax (numSub hl) records)
                (globalMin (numSub hl) records) = true) :
    load_csv_heatmap hl records
      = some (List.replicate records.length (List.replicate (numSub hl) 0)) := by
  unfold load_csv_heatmap
  rw [if_neg (show ¬ hl < 4 by omega)]
  dsimp only
  rw [if_neg hns, mapM_readRecord_full hfull]
  dsimp only
  have hrows : (rawAmpRows (numSub hl) records).isEmpty = false := by
    cases records with
    | nil => exact absurd rfl hne
    | cons a as => rfl
  rw [hrows]
  have hg : (!(globalMin (numSub hl) records).isFinite ||
             !(globalMax (numSub hl) records).isFinite ||
             F32.fle (globalMax (numSub hl) records)
               (globalMin (numSub hl) records)) = true := by
    rcases hguard with h | h | h <;> simp [h]
  rw [hg]
  simp [rawAmpRows]

theorem c5_degenerate_range_zero_grid_witness :
    (4 ≤ 4 ∧ numSub 4 ≠ 0 ∧
      ([[F32.finite 0, F32.finite 0, F32.finite 0, F32.finite 0]]
          : List (List F32)) ≠ [] ∧
      (∀ r ∈ ([[F32.finite 0, F32.finite 0, F32.finite 0, F32.finite 0]]
          : List (List F32)), r.length = 4) ∧
      F32.fle (globalMax (numSub 4)
          [[F32.finite 0, F32.finite 0, F32.finite 0, F32.finite 0]])
        (globalMin (numSub 4)
          [[F32.finite 0, F32.finite 0, F32.finite 0, F32.finite 0]]) = true) ∧
    load_csv_heatmap 4 [[F32.finite 0, F32.finite 0, F32.finite 0, F32.finite 0]]
      = some (List.replicate 1 (List.replicate (numSub 4) 0)) :=
  have hle : F32.fle (globalMax (numSub 4)
        [[F32.finite 0, F32.finite 0, F32.finite 0, F32.finite 0]])
      (globalMin (numSub 4)
        [[F32.finite 0, F32.finite 0, F32.finite 0, F32.finite 0]]) = true := by
    show F32.fle (F32.finite (0 * 0 + 0 * 0)) (F32.finite (0 * 0 + 0 * 0)) = true
    simp [F32.fle]
  ⟨⟨by norm_num, by decide, by decide, by decide, hle⟩,
   c5_degenerate_range_zero_grid 4 _ (by norm_num) (by decide) (by decide)
     (by decide) (Or.inr (Or.inr hle))⟩

/-- C6: with a finite, non-degenerate tracked range, every cell of the
normalized grid is exactly `round(clamp((a_sq - min) / (max - min), 0, 1) *
100)` cast to a byte, applied to that cell's squared amplitude, and every
cell is at most 100. -/
theorem c6_nondegenerate_normalization (hl : Nat) (records : List (List F32))
    (h4 : 4 ≤ hl) (hns : numSub hl ≠ 0) (hne : records ≠ [])
    (hfull : ∀ r ∈ records, r.length = hl)
    (hminf : (globalMin (numSub hl) records).isFinite = true)
    (hmaxf : (globalMax (numSub hl) records).isFinite = true)
    (hnotle : F32.fle (globalMax (numSub hl) records)
        (globalMin (numSub hl) records) = false) :
    load_csv_heatmap hl records
      = some ((rawAmpRows (numSub hl) records).map (fun row => row.map (fun a =>
          F32.toU8 (F32.fround (F32.fmul (F32.clamp01
            (F32.fdiv (F32.fsub a (globalMin (numSub hl) records))
              (F32.fsub (globalMax (numSub hl) records)
                (globalMin (numSub hl) records))))
            (F32.finite 100)))))) ∧
    ∀ grid, load_csv_heatmap hl records = some grid →
      ∀ row ∈ grid, ∀ cell ∈ row, cell ≤ 100 := by
  have hmain : load_csv_heatmap hl records
      = some ((rawAmpRows (numSub hl) records).map (fun row => row.map
          (scaleCell (globalMin (numSub hl) records)
            (F32.fsub (globalMax (numSub hl) records)
              (globalMin (numSub hl) records))))) := by
    unfold load_csv_heatmap
    rw [if_neg (show ¬ hl < 4 by omega)]
    dsimp only
    rw [if_neg hns, mapM_readRecord_full hfull]
    dsimp only
    have hrows : (rawAmpRows (numSub hl) records).isEmpty = false := by
      cases records with
      | nil => exact absurd rfl hne
      | cons a as => rfl
    rw [hrows]
    have hg : (!(globalMin (numSub hl) records).isFinite ||
               !(globalMax (numSub hl) records).isFinite ||
               F32.fle (globalMax (numSub hl) records)
                 (globalMin (numSub hl) records)) = false := by
      simp [hminf, hmaxf, hnotle]
    rw [hg]
    rfl
  constructor
  · exact hmain
  · intro grid hgrid row hrow cell hcell
    rw [hmain] at hgrid
    have hgrid' := Option.some.inj hgrid
    subst hgrid'
    obtain ⟨arow, _, harow⟩ := List.mem_map.1 hrow
    subst harow
    obtain ⟨a, _, ha⟩ := List.mem_map.1 hcell
    subst ha
    exact scaleCell_le_100 _ _ _

theorem fmin_finite (a b : ℚ) :
    F32.fmin (F32.finite a) (F32.finite b) = F32.finite (min a b) := by
  show (if F32.fle (F32.finite a) (F32.finite b) = true
        then F32.finite a else F32.finite b) = _
  by_cases h : a ≤ b
  · rw [if_pos (by simp [F32.fle, h]), min_eq_left h]
  · rw [if_neg (by simp [F32.fle, h]), min_eq_right (le_of_not_le h)]

theorem fmax_finite (a b : ℚ) :
    F32.fmax (F32.finite a) (F32.finite b) = F32.finite (max a b) := by
  show (if F32.fle (F32.finite a) (F32.finite b) = true
        then F32.finite b else F32.finite a) = _
  by_cases h : a ≤ b
  · rw [if_pos (by simp [F32.fle, h]), max_eq_right h]
  · rw [if_neg (by simp [F32.fle, h]), max_eq_left (le_of_not_le h)]

theorem fdiv_finite_ne (a b : ℚ) (hb : b ≠ 0) :
    F32.fdiv (F32.finite a) (F32.finite b) = F32.finite (a / b) := by
  show (if b = 0
        then (if (0 : ℚ) < a then F32.posInf
              else if a < 0 then F32.negInf else F32.nan)
        else F32.finite (a / b)) = F32.finite (a / b)
  rw [if_neg hb]

theorem roundAway_eval {x : ℚ} {z : Int} (h0 : 0 ≤ x) (h1 : (z : ℚ) ≤ x + 1 / 2)
    (h2 : x + 1 / 2 < z + 1) : roundAway x = z := by
  unfold roundAway
  rw [if_pos h0]
  exact Int.floor_eq_iff.2 ⟨h1, by linarith⟩

theorem toU8_int {z : Int} (h0 : 0 ≤ z) (h255 : z ≤ 255) :
    F32.toU8 (F32.finite (z : ℚ)) = z.toNat := by
  show (if qtrunc ((z : Int) : ℚ) < 0 then (0 : Nat)
        else if 255 < qtrunc ((z : Int) : ℚ) then 255
        else (qtrunc ((z : Int) : ℚ)).toNat) = z.toNat
  rw [qtrunc_intCast, if_neg (by omega), if_neg (by omega)]

theorem scaleCell_finite_eval (qmin qmax a : ℚ) (hne : qmax - qmin ≠ 0) :
    scaleCell (F32.finite qmin) (F32.fsub (F32.finite qmax) (F32.finite qmin))
        (F32.finite a)
      = (roundAway (min (max ((a - qmin) / (qmax - qmin)) 0) 1 * 100)).toNat := by
  unfold scaleCell
  rw [show F32.fsub (F32.finite qmax) (F32.finite qmin)
        = F32.finite (qmax - qmin) from rfl,
      show F32.fsub (F32.finite a) (F32.finite qmin)
        = F32.finite (a - qmin) from rfl,
      fdiv_finite_ne _ _ hne]
  show F32.toU8 (F32.finite ((roundAway
      (min (max ((a - qmin) / (qmax - qmin)) 0) 1 * 100) : Int) : ℚ)) = _
  have hc0 : (0 : ℚ) ≤ min (max ((a - qmin) / (qmax - qmin)) 0) 1 :=
    le_min (le_max_right _ 0) (by norm_num)
  have hc1 : min (max ((a - qmin) / (qmax - qmin)) 0) 1 ≤ 1 := min_le_right _ _
  obtain ⟨h0, h1⟩ := @roundAway_bounds
    (min (max ((a - qmin) / (qmax - qmin)) 0) 1 * 100)
    (by positivity) (by nlinarith)
  rw [toU8_int h0 (by omega)]

theorem c6_nondegenerate_normalization_witness :
    ((∀ r ∈ ([[F32.finite 0, F32.finite 0, F32.finite 0, F32.finite 0],
              [F32.finite 0, F32.finite 0, F32.finite 6, F32.finite 8]]
          : List (List F32)), r.length = 4) ∧
      (globalMin (numSub 4)
        [[F32.finite 0, F32.finite 0, F32.finite 0, F32.finite 0],
         [F32.finite 0, F32.finite 0, F32.finite 6, F32.finite 8]]).isFinite
        = true ∧
      (globalMax (numSub 4)
        [[F32.finite 0, F32.finite 0, F32.finite 0, F32.finite 0],
         [F32.finite 0, F32.finite 0, F32.finite 6, F32.finite 8]]).isFinite
        = true ∧
      F32.fle (globalMax (numSub 4)
          [[F32.finite 0, F32.finite 0, F32.finite 0, F32.finite 0],
           [F32.finite 0, F32.finite 0, F32.finite 6, F32.finite 8]])
        (globalMin (numSub 4)
          [[F32.finite 0, F32.finite 0, F32.finite 0, F32.finite 0],
           [F32.finite 0, F32.finite 0, F32.finite 6, F32.finite 8]]) = false) ∧
    load_csv_heatmap 4
        [[F32.finite 0, F32.finite 0, F32.finite 0, F32.finite 0],
         [F32.finite 0, F32.finite 0, F32.finite 6, F32.finite 8]]
      = some [[0], [100]] ∧
    ∀ grid, load_csv_heatmap 4
        [[F32.finite 0, F32.finite 0, F32.finite 0, F32.finite 0],
         [F32.finite 0, F32.finite 0, F32.finite 6, F32.finite 8]]
        = some grid →
      ∀ row ∈ grid, ∀ cell ∈ row, cell ≤ 100 := by
  have hmin : globalMin (numSub 4)
      [[F32.finite 0, F32.finite 0, F32.finite 0, F32.finite 0],
       [F32.finite 0, F32.finite 0, F32.finite 6, F32.finite 8]]
      = F32.finite 0 := by
    show F32.fmin (F32.fmin F32.posInf (F32.finite (0 * 0 + 0 * 0)))
        (F32.finite (6 * 6 + 8 * 8)) = F32.finite 0
    rw [show F32.fmin F32.posInf (F32.finite ((0 : ℚ) * 0 + 0 * 0))
          = F32.finite (0 * 0 + 0 * 0) from rfl, fmin_finite]
    congr 1
    norm_num
  have hmax : globalMax (numSub 4)
      [[F32.finite 0, F32.finite 0, F32.finite 0, F32.finite 0],
       [F32.finite 0, F32.finite 0, F32.finite 6, F32.finite 8]]
      = F32.finite 100 := by
    show F32.fmax (F32.fmax F32.negInf (F32.finite (0 * 0 + 0 * 0)))
        (F32.finite (6 * 6 + 8 * 8)) = F32.finite 100
    rw [show F32.fmax F32.negInf (F32.finite ((0 : ℚ) * 0 + 0 * 0))
          = F32.finite (0 * 0 + 0 * 0) from rfl, fmax_finite]
    congr 1
    norm_num
  have hminf : (globalMin (numSub 4)
      [[F32.finite 0, F32.finite 0, F32.finite 0, F32.finite 0],
       [F32.finite 0, F32.finite 0, F32.finite 6, F32.finite 8]]).isFinite
      = true := by rw [hmin]; rfl
  have hmaxf : (globalMax (numSub 4)
      [[F32.finite 0, F32.finite 0, F32.finite 0, F32.finite 0],
       [F32.finite 0, F32.finite 0, F32.finite 6, F32.finite 8]]).isFinite
      = true := by rw [hmax]; rfl
  have hnotle : F32.fle (globalMax (numSub 4)
      [[F32.finite 0, F32.finite 0, F32.finite 0, F32.finite 0],
       [F32.finite 0, F32.finite 0, F32.finite 6, F32.finite 8]])
      (globalMin (numSub 4)
      [[F32.finite 0, F32.finite 0, F32.finite 0, F32.finite 0],
       [F32.finite 0, F32.finite 0, F32.finite 6, F32.finite 8]]) = false := by
    rw [hmin, hmax]
    simp [F32.fle]
  have happ := c6_nondegenerate_normalization 4
    [[F32.finite 0, F32.finite 0, F32.finite 0, F32.finite 0],
     [F32.finite 0, F32.finite 0, F32.finite 6, F32.finite 8]]
    (by norm_num) (by decide) (by decide) (by decide) hminf hmaxf hnotle
  refine ⟨⟨by decide, hminf, hmaxf, hnotle⟩, ?_, happ.2⟩
  rw [happ.1]
  refine congrArg some ?_
  show (rawAmpRows (numSub 4)
      [[F32.finite 0, F32.finite 0, F32.finite 0, F32.finite 0],
       [F32.finite 0, F32.finite 0, F32.finite 6, F32.finite 8]]).map
      (fun row => row.map (scaleCell
        (globalMin (numSub 4)
          [[F32.finite 0, F32.finite 0, F32.finite 0, F32.finite 0],
           [F32.finite 0, F32.finite 0, F32.finite 6, F32.finite 8]])
        (F32.fsub
          (globalMax (numSub 4)
            [[F32.finite 0, F32.finite 0, F32.finite 0, F32.finite 0],
             [F32.finite 0, F32.finite 0, F32.finite 6, F32.finite 8]])
          (globalMin (numSub 4)
            [[F32.finite 0, F32.finite 0, F32.finite 0, F32.finite 0],
             [F32.finite 0, F32.finite 0, F32.finite 6, F32.finite 8]]))))
      = [[0], [100]]
  simp only [hmin, hmax]
  show ([[F32.finite ((0 : ℚ) * 0 + 0 * 0)], [F32.finite ((6 : ℚ) * 6 + 8 * 8)]]).map
      (fun row => row.map (scaleCell (F32.finite 0)
        (F32.fsub (F32.finite 100) (F32.finite 0)))) = [[0], [100]]
  simp only [List.map_cons, List.map_nil]
  rw [scaleCell_finite_eval _ _ _ (by norm_num),
      scaleCell_finite_eval _ _ _ (by norm_num)]
  have e0 : roundAway (min (max ((((0 : ℚ) * 0 + 0 * 0) - 0) / (100 - 0)) 0) 1 * 100)
      = 0 :=
    roundAway_eval (by norm_num) (by norm_num) (by norm_num)
  have e1 : roundAway (min (max ((((6 : ℚ) * 6 + 8 * 8) - 0) / (100 - 0)) 0) 1 * 100)
      = 100 :=
    roundAway_eval (by norm_num [min_def, max_def]) (by norm_num [min_def, max_def])
      (by norm_num [min_def, max_def])
  rw [e0, e1]
  rfl

/-! ## C7: short-row handling in the two decoders -/

theorem ampSeriesGo_skip (i_col q_col : Nat) (shortline : List Char)
    (hsh : ((splitOnChar ',' (trim shortline)).map trim).length ≤ q_col) :
    ∀ (pre : List (List Char)) (post : List (List Char)) (fts : Option Nat),
      ampSeriesGo i_col q_col (pre ++ shortline :: post) fts
        = ampSeriesGo i_col q_col (pre ++ post) fts := by
  intro pre
  induction pre with
  | nil =>
    intro post fts
    show ampSeriesGo i_col q_col (shortline :: post) fts = _
    rw [ampSeriesGo]
    by_cases he : (trim shortline).isEmpty = true
    · simp [he]
    · simp only [he, Bool.false_eq_true, if_false]
      rw [if_pos hsh]
      rfl
  | cons l pre' ih =>
    intro post fts
    show ampSeriesGo i_col q_col (l :: (pre' ++ shortline :: post)) fts = _
    rw [ampSeriesGo]
    conv_rhs => rw [show (l :: pre') ++ post = l :: (pre' ++ post) from rfl, ampSeriesGo]
    by_cases h1 : (trim l).isEmpty = true
    · simp only [h1, if_true]
      exact ih post fts
    · simp only [h1, Bool.false_eq_true, if_false]
      by_cases h2 : ((splitOnChar ',' (trim l)).map trim).length ≤ q_col
      · rw [if_pos h2, if_pos h2]
        exact ih post fts
      · rw [if_neg h2, if_neg h2]
        cases hu : parseU64 (((splitOnChar ',' (trim l)).map trim).getD 0 []) with
        | none => exact ih post fts
        | some ts =>
          cases hi : parseI32 (((splitOnChar ',' (trim l)).map trim).getD i_col []) with
          | none => exact ih post fts
          | some i =>
            cases hq : parseI32 (((splitOnChar ',' (trim l)).map trim).getD q_col []) with
            | none => exact ih post fts
            | some q =>
              cases fts with
              | none =>
                dsimp only
                rw [ih post (some ts)]
              | some ts0 =>
                dsimp only
                rw [ih post (some ts0)]

/-- Successful decode: when every record has the header's field count the
heatmap decoder returns a grid with exactly one row per record, in both the
degenerate and the normalizing path. -/
theorem load_csv_heatmap_some (hl : Nat) (records : List (List F32))
    (h4 : 4 ≤ hl) (hns : numSub hl ≠ 0)
    (hfull : ∀ r ∈ records, r.length = hl) :
    ∃ grid, load_csv_heatmap hl records = some grid ∧
      grid.length = records.length := by
  unfold load_csv_heatmap
  rw [if_neg (show ¬ hl < 4 by omega)]
  dsimp only
  rw [if_neg hns, mapM_readRecord_full hfull]
  dsimp only
  by_cases hrows : (rawAmpRows (numSub hl) records).isEmpty = true
  · rw [hrows, if_pos rfl]
    refine ⟨[], rfl, ?_⟩
    rcases records with _ | ⟨r, rs⟩
    · rfl
    · simp [rawAmpRows] at hrows
  · rw [Bool.not_eq_true] at hrows
    rw [hrows, if_neg (by simp)]
    by_cases hg : (!(globalMin (numSub hl) records).isFinite ||
        !(globalMax (numSub hl) records).isFinite ||
        F32.fle (globalMax (numSub hl) records)
          (globalMin (numSub hl) records)) = true
    · rw [if_pos hg]
      exact ⟨_, rfl, by simp [rawAmpRows]⟩
    · rw [if_neg hg]
      exact ⟨_, rfl, by simp [rawAmpRows]⟩

/-- Failing decode: past the early shape checks, one record whose field count
differs from the header width makes the strict record stream fail, the `?`
propagates the error, and the heatmap decoder returns no grid at all. -/
theorem load_csv_heatmap_short_fatal (hl : Nat) (records : List (List F32))
    (h4 : 4 ≤ hl) (hns : numSub hl ≠ 0)
    (hshort : ∃ r ∈ records, r.length ≠ hl) :
    load_csv_heatmap hl records = none := by
  unfold load_csv_heatmap
  rw [if_neg (show ¬ hl < 4 by omega)]
  dsimp only
  rw [if_neg hns]
  obtain ⟨r, hr, hlen⟩ := hshort
  rw [mapM_option_eq_none (readRecord hl) records
    ⟨r, hr, by unfold readRecord; rw [if_neg hlen]⟩]

/-- C7 counterexample: in the heatmap decoder a data row with fewer columns
than required (here 2 columns, required 4) is fatal — the strict csv record
stream errors and decoding aborts with no output, instead of the row being
skipped and decoding continuing with the remaining rows. -/
theorem c7_counterexample :
    load_csv_heatmap 4
        [[F32.finite 0, F32.finite 0, F32.finite 6, F32.finite 8],
         [F32.finite 0, F32.finite 0]]
      = none ∧
    load_csv_heatmap 4
        [[F32.finite 0, F32.finite 0, F32.finite 6, F32.finite 8],
         [F32.finite 0, F32.finite 0]]
      ≠ load_csv_heatmap 4
          [[F32.finite 0, F32.finite 0, F32.finite 6, F32.finite 8]] := by
  have hnone : load_csv_heatmap 4
      [[F32.finite 0, F32.finite 0, F32.finite 6, F32.finite 8],
       [F32.finite 0, F32.finite 0]] = none :=
    load_csv_heatmap_short_fatal 4 _ (by norm_num) (by decide)
      ⟨[F32.finite 0, F32.finite 0],
       List.mem_cons_of_mem _ (List.mem_cons_self _ _), by decide⟩
  have hfull : ∀ r ∈ [[F32.finite 0, F32.finite 0, F32.finite 6, F32.finite 8]],
      r.length = 4 := by
    intro r hr
    simp only [List.mem_singleton] at hr
    subst hr
    rfl
  obtain ⟨grid, hg, _⟩ :=
    load_csv_heatmap_some 4 [[F32.finite 0, F32.finite 0, F32.finite 6, F32.finite 8]]
      (by norm_num) (by decide) hfull
  refine ⟨hnone, ?_⟩
  rw [hnone, hg]
  simp

/-- C7 (amended): only the replay decoder `load_csv_amplitude_series` skips a
data row with fewer columns than required — such a row never contributes and
decoding continues with the remaining rows.  In the heatmap decoder
`load_csv_heatmap` a record whose field count differs from the header width
is fatal: the csv reader's strict (non-flexible) default yields an error for
it and decoding aborts with no grid. -/
theorem c7_short_row_handling :
    (∀ (header : List Char) (pre post : List (List Char))
        (shortline : List Char) (sc : Nat),
       ((splitOnChar ',' (trim shortline)).map trim).length ≤ 3 + 2 * sc →
       load_csv_amplitude_series (header :: (pre ++ shortline :: post)) sc
         = load_csv_amplitude_series (header :: (pre ++ post)) sc) ∧
    (∀ (hl : Nat) (records : List (List F32)),
       4 ≤ hl → numSub hl ≠ 0 →
       (∃ r ∈ records, r.length ≠ hl) →
       load_csv_heatmap hl records = none) := by
  constructor
  · intro header pre post shortline sc hsh
    unfold load_csv_amplitude_series
    dsimp only
    rw [ampSeriesGo_skip (2 + 2 * sc) (3 + 2 * sc) shortline hsh pre post none]
  · exact load_csv_heatmap_short_fatal

theorem c7_short_row_handling_witness :
    (((splitOnChar ',' (trim ("1,2".data))).map trim).length ≤ 3 + 2 * 0 ∧
      load_csv_amplitude_series (("h".data) :: ([] ++ ("1,2".data) :: [])) 0
        = load_csv_amplitude_series (("h".data) :: ([] ++ [])) 0) ∧
    ((4 : Nat) ≤ 4 ∧ numSub 4 ≠ 0 ∧
      ([F32.finite 0, F32.finite 0] : List F32).length ≠ 4 ∧
      load_csv_heatmap 4
          [[F32.finite 0, F32.finite 0, F32.finite 6, F32.finite 8],
           [F32.finite 0, F32.finite 0]]
        = none) :=
  ⟨⟨by decide,
    c7_short_row_handling.1 ("h".data) [] [] ("1,2".data) 0 (by decide)⟩,
   ⟨by norm_num, by decide, by decide,
    c7_short_row_handling.2 4
      [[F32.finite 0, F32.finite 0, F32.finite 6, F32.finite 8],
       [F32.finite 0, F32.finite 0]]
      (by norm_num) (by decide)
      ⟨[F32.finite 0, F32.finite 0],
       List.mem_cons_of_mem _ (List.mem_cons_self _ _), by decide⟩⟩⟩

/-! ## C9: worker disconnection observed by the consumer loop -/

/-- C9: when the consumer loop polls the completion channel and observes
`Disconnected`, the session transitions to `Finished` with the distinct
worker-disconnected status, the receiver is dropped so no further poll
changes state, and the outcome differs from the still-running (`Empty`)
handling, which leaves the state untouched, and from every success or
recording-failure status. -/
theorem c9_disconnected_is_terminal_failure (lfp : AppSlice → AppSlice)
    (a : AppSlice) (h : a.worker_done_rx = true) :
    (check_worker lfp a TryRecv.disconnected).step = Step.Finished ∧
    (check_worker lfp a TryRecv.disconnected).status
      = "Worker thread disconnected unexpectedly.".data ∧
    (check_worker lfp a TryRecv.disconnected).worker_done_rx = false ∧
    (∀ poll, check_worker lfp (check_worker lfp a TryRecv.disconnected) poll
        = check_worker lfp a TryRecv.disconnected) ∧
    check_worker lfp a TryRecv.empty = a ∧
    (check_worker lfp a TryRecv.disconnected).status
      ≠ "Recording finished successfully.".data ∧
    (∀ e, (check_worker lfp a TryRecv.disconnected).status
        ≠ "Recording failed: ".data ++ e) := by
  have hd : check_worker lfp a TryRecv.disconnected
      = { a with status := "Worker thread disconnected unexpectedly.".data,
                 step := Step.Finished, worker_done_rx := false } := by
    unfold check_worker
    rw [if_pos h]
  refine ⟨by rw [hd], by rw [hd], by rw [hd], ?_, ?_, ?_, ?_⟩
  · intro poll
    rw [hd]
    show check_worker lfp _ poll = _
    unfold check_worker
    rw [if_neg (by simp)]
  · unfold check_worker
    rw [if_pos h]
  · rw [hd]
    intro heq
    have hW : ('W' : Char) = 'R' := congrArg (fun l => l.headD ' ') heq
    exact absurd hW (by decide)
  · intro e
    rw [hd]
    intro heq
    have hW : ('W' : Char) = 'R' := congrArg (fun l => l.headD ' ') heq
    exact absurd hW (by decide)

theorem c9_disconnected_is_terminal_failure_witness :
    ((⟨"x".data, Step.Recording, true, some 3, true, true⟩
        : AppSlice).worker_done_rx = true) ∧
    (check_worker id ⟨"x".data, Step.Recording, true, some 3, true, true⟩
        TryRecv.disconnected).step = Step.Finished ∧
    (check_worker id ⟨"x".data, Step.Recording, true, some 3, true, true⟩
        TryRecv.disconnected).status
      = "Worker thread disconnected unexpectedly.".data ∧
    (check_worker id ⟨"x".data, Step.Recording, true, some 3, true, true⟩
        TryRecv.disconnected).worker_done_rx = false ∧
    check_worker id ⟨"x".data, Step.Recording, true, some 3, true, true⟩
        TryRecv.empty
      = ⟨"x".data, Step.Recording, true, some 3, true, true⟩ :=
  ⟨rfl,
   (c9_disconnected_is_terminal_failure id _ rfl).1,
   (c9_disconnected_is_terminal_failure id _ rfl).2.1,
   (c9_disconnected_is_terminal_failure id _ rfl).2.2.1,
   (c9_disconnected_is_terminal_failure id _ rfl).2.2.2.2.1⟩

end EspCsi
